import Mathlib

/-!
# Verification of the `davenov-cc-collection` install/uninstall script

This file gives a shallow embedding of `install.js`, the only executable
logic of the repository: a CLI that copies a fixed set of customization
directories ("commands", "skills") into a destination root (`~/.claude`)
and can uninstall a statically declared manifest of items again.

The filesystem is modelled as a pair of total maps: file paths to optional
byte contents (`String`) and directory paths to booleans.  Paths are lists
of path components.  The source tree handed to the installer is modelled as
an inductive tree of files and directories, mirroring what `copyRecursive`
reads from disk via `readdirSync`/`statSync`.
-/

namespace Davenov

/-- A filesystem path, as a list of components (no separators). -/
abbrev FPath := List String

/-- `pathStartsWith p t` holds when `t` is an initial segment of `p`,
i.e. `p` lies at or below `t` in the directory tree. -/
def pathStartsWith : FPath → FPath → Bool
  | _, [] => true
  | [], _ :: _ => false
  | a :: p, b :: t => a == b && pathStartsWith p t

/-- The destination-side filesystem: contents of files and existence of
directories, as total maps over paths. -/
structure FS where
  files : FPath → Option String
  dirs : FPath → Bool

/-- The model of Node's `fs.existsSync`: the path is a file or a
directory. -/
def FS.pathExists (fs : FS) (p : FPath) : Bool :=
  (fs.files p).isSome || fs.dirs p

/-- Model of `fs.copyFileSync src dest` on the destination side: write
content `c` at path `p`, overwriting. -/
def FS.writeFile (fs : FS) (p : FPath) (c : String) : FS :=
  { fs with files := fun q => if q = p then some c else fs.files q }

/-- Model of `fs.mkdirSync(p, { recursive: true })`: `p` and all of its
ancestors become directories. -/
def FS.mkdirp (fs : FS) (p : FPath) : FS :=
  { fs with dirs := fun q => if pathStartsWith p q then true else fs.dirs q }

/-- Model of `fs.rmSync(t, { recursive: true, force: true })`: everything at
or below `t` disappears. -/
def FS.removeTree (fs : FS) (t : FPath) : FS :=
  { files := fun q => if pathStartsWith q t then none else fs.files q,
    dirs := fun q => if pathStartsWith q t then false else fs.dirs q }

/-- Model of `fs.unlinkSync p`: the single file at `p` disappears. -/
def FS.unlink (fs : FS) (p : FPath) : FS :=
  { fs with files := fun q => if q = p then none else fs.files q }

/-- A source tree as read from `SOURCE_DIR`: a file with contents, or a
directory with a list of named entries (`readdirSync` order). -/
inductive FTree where
  | file : String → FTree
  | dir : List (String × FTree) → FTree

/-- `install.js` line 17: the customization directories. -/
def CUSTOMIZATION_DIRS : List String := ["commands", "skills"]

/-- `install.js` lines 20–28: the static manifest of files/folders this
package installs, keyed by customization directory. -/
def INSTALLED_ITEMS : List (String × List String) :=
  [("commands", ["davenov:cc:interview.md", "davenov:cc:rule.md", "davenov:cc:update.md"]),
   ("skills",
    ["davenov:cc:expert-convex-nextjs", "davenov:cc:expert-evolu-nextjs",
     "davenov:cc:expert-nextjs-16", "davenov:cc:expert-build-nostr"])]

/-- The manifest items of one group (empty for a group the manifest does not
name). -/
def manifestItems (g : String) : List String :=
  match INSTALLED_ITEMS.lookup g with
  | some items => items
  | none => []

/-- ASCII lowering of one character, as performed by JavaScript's
`toLowerCase` on the ASCII range that matters for the `"y"` comparison. -/
def lowerChar (c : Char) : Char :=
  if c.isUpper then Char.ofNat (c.toNat + 32) else c

/-- ASCII lowering of a string (`answer.toLowerCase()`). -/
def lowerString (s : String) : String := ⟨s.data.map lowerChar⟩

/-- `install.js` lines 121 / 193: the recorded answer is affirmative exactly
when `answer.toLowerCase() === "y"`. -/
def isYes (answer : String) : Bool := lowerString answer == "y"

/-- Lookup of a named entry among the children of a source directory
(`fs.existsSync(path.join(SOURCE_DIR, dir))` and the later reads). -/
def lookupEntry : List (String × FTree) → String → Option FTree
  | [], _ => none
  | (n, t) :: rest, d => if d = n then some t else lookupEntry rest d

mutual
/-- `install.js` lines 43–58, `copyRecursive(src, dest)`: a file is copied
with `copyFileSync`; a directory is created at `dest` when nothing exists
there, and every entry is copied recursively. -/
def copyRecursive : FTree → FPath → FS → FS
  | .file c, dest, fs => fs.writeFile dest c
  | .dir entries, dest, fs =>
      copyEntries entries dest (if fs.pathExists dest then fs else fs.mkdirp dest)

/-- The `for (const entry of entries)` loop inside `copyRecursive`. -/
def copyEntries : List (String × FTree) → FPath → FS → FS
  | [], _, fs => fs
  | (n, t) :: rest, dest, fs => copyEntries rest dest (copyRecursive t (dest ++ [n]) fs)
end

/-- `install.js` lines 77–87, `removeRecursive(target)`: missing targets
return `false` untouched; a directory is removed recursively, anything else
is unlinked; returns whether anything was removed. -/
def removeRecursive (fs : FS) (target : FPath) : Bool × FS :=
  if fs.pathExists target = false then (false, fs)
  else if fs.dirs target then (true, fs.removeTree target)
  else (true, fs.unlink target)

mutual
/-- File lookup in a source tree at a relative path, with the same
last-entry-wins shadowing as the sequential copy loop. -/
def treeFileAt : FTree → FPath → Option String
  | .file c, [] => some c
  | .file _, _ :: _ => none
  | .dir _, [] => none
  | .dir entries, n :: q => entriesFileAt entries n q

/-- File lookup among directory entries (later entries shadow earlier
ones, matching the overwrite order of the copy loop). -/
def entriesFileAt : List (String × FTree) → String → FPath → Option String
  | [], _, _ => none
  | (m, t) :: rest, n, q =>
      match entriesFileAt rest n q with
      | some c => some c
      | none => if n = m then treeFileAt t q else none
end

mutual
/-- `treeReaches t q` holds when `q` is the relative path of some node
(file or directory) of the tree `t`; the empty path is the root. -/
def treeReaches : FTree → FPath → Bool
  | _, [] => true
  | .file _, _ :: _ => false
  | .dir entries, n :: q => entriesReaches entries n q

/-- Node lookup among directory entries. -/
def entriesReaches : List (String × FTree) → String → FPath → Bool
  | [], _, _ => false
  | (m, t) :: rest, n, q =>
      (if n = m then treeReaches t q else false) || entriesReaches rest n q
end

/-- Outcome discriminator for the install flow. -/
inductive InstallStatus where
  | nothingToInstall
  | cancelled
  | completed
deriving DecidableEq

/-- Result of one run of the install flow: the status, the process exit
code, whether the overwrite prompt was shown, and the final filesystem. -/
structure InstallResult where
  status : InstallStatus
  exitCode : Nat
  prompted : Bool
  fs : FS

/-- `install.js` lines 156–158: the customization dirs whose source
directory exists. -/
def availableDirs (src : List (String × FTree)) : List String :=
  CUSTOMIZATION_DIRS.filter (fun d => (lookupEntry src d).isSome)

/-- `install.js` lines 174–176: the available dirs whose destination
directory already exists (the coarse conflict check). -/
def existingDirs (src : List (String × FTree)) (root : FPath) (fs : FS) : List String :=
  (availableDirs src).filter (fun d => fs.pathExists (root ++ [d]))

/-- `install.js` lines 178–198: the overwrite prompt is shown exactly when
some destination directory exists and `--auto-override` is absent. -/
def installPrompted (src : List (String × FTree)) (autoOverride : Bool)
    (root : FPath) (fs : FS) : Bool :=
  !(existingDirs src root fs).isEmpty && !autoOverride

/-- `install.js` lines 201–216: ensure the destination root exists, then
copy every available group from source to destination. -/
def installCopy (src : List (String × FTree)) (root : FPath) (fs : FS) : FS :=
  (availableDirs src).foldl (fun acc d =>
    match lookupEntry src d with
    | some t => copyRecursive t (root ++ [d]) acc
    | none => acc) (if fs.pathExists root then fs else fs.mkdirp root)

/-- `install.js` lines 151–222, the install flow of `main()`:
filter the customization dirs to those present in the source; exit early
when none is; prompt when some group's destination directory exists and
`--auto-override` is absent; cancel (exit 0, no mutation) on a non-`y`
answer; otherwise ensure the destination root and copy every available
group. -/
def installFlow (src : List (String × FTree)) (autoOverride : Bool) (answer : String)
    (root : FPath) (fs : FS) : InstallResult :=
  if (availableDirs src).isEmpty then ⟨.nothingToInstall, 0, false, fs⟩
  else if installPrompted src autoOverride root fs && !(isYes answer) then
    ⟨.cancelled, 0, installPrompted src autoOverride root fs, fs⟩
  else ⟨.completed, 0, installPrompted src autoOverride root fs, installCopy src root fs⟩

/-- Outcome discriminator for the uninstall flow. -/
inductive UninstallStatus where
  | nothingFound
  | cancelled
  | completed
deriving DecidableEq

/-- Result of one run of the uninstall flow. -/
structure UninstallResult where
  status : UninstallStatus
  exitCode : Nat
  removed : Nat
  fs : FS

/-- `install.js` lines 94–102: the scan over `INSTALLED_ITEMS` collecting
the `(dir, item)` pairs whose full destination path currently exists. -/
def uninstallScan (root : FPath) (fs : FS) : List (String × String) :=
  INSTALLED_ITEMS.flatMap (fun g =>
    (g.2.filter (fun item => fs.pathExists (root ++ [g.1, item]))).map (fun item => (g.1, item)))

/-- `install.js` lines 131–137: the removal loop over the scanned items,
threading the removed-count and the filesystem. -/
def runRemovals (root : FPath) (items : List (String × String)) (acc : Nat × FS) : Nat × FS :=
  items.foldl (fun acc gi =>
    let rr := removeRecursive acc.2 (root ++ [gi.1, gi.2])
    (acc.1 + (if rr.1 then 1 else 0), rr.2)) acc

/-- `install.js` lines 89–140, `uninstall()`: report when the scan is
empty; cancel on a non-`y` answer unless `--auto-override`; otherwise
remove every scanned item, counting successes. -/
def uninstallFlow (autoOverride : Bool) (answer : String) (root : FPath) (fs : FS) :
    UninstallResult :=
  if (uninstallScan root fs).isEmpty then ⟨.nothingFound, 0, 0, fs⟩
  else if !autoOverride && !(isYes answer) then ⟨.cancelled, 0, 0, fs⟩
  else
    let r := runRemovals root (uninstallScan root fs) (0, fs)
    ⟨.completed, 0, r.1, r.2⟩

/-- Install immediately followed by uninstall, both auto-confirmed. -/
def roundTrip (src : List (String × FTree)) (root : FPath) (fs : FS) : FS :=
  (uninstallFlow true "" root (installFlow src true "" root fs).fs).fs

/-! ## Path lemmas -/

theorem psw_nil (p : FPath) : pathStartsWith p [] = true := by
  cases p <;> rfl

theorem psw_nil_cons (b : String) (t : FPath) : pathStartsWith [] (b :: t) = false := rfl

theorem psw_cons (a b : String) (p t : FPath) :
    pathStartsWith (a :: p) (b :: t) = (a == b && pathStartsWith p t) := rfl

theorem psw_refl (p : FPath) : pathStartsWith p p = true := by
  induction p with
  | nil => rfl
  | cons a p ih => simp [psw_cons, ih]

theorem psw_append (d a : FPath) : pathStartsWith (d ++ a) d = true := by
  induction d with
  | nil => exact psw_nil _
  | cons x d ih => simp [psw_cons, ih]

theorem psw_append_both (d a b : FPath) :
    pathStartsWith (d ++ a) (d ++ b) = pathStartsWith a b := by
  induction d with
  | nil => rfl
  | cons x d ih => simp [psw_cons, ih]

theorem psw_trans {p t s : FPath} (h1 : pathStartsWith p t = true)
    (h2 : pathStartsWith t s = true) : pathStartsWith p s = true := by
  induction s generalizing p t with
  | nil => exact psw_nil p
  | cons c s ih =>
      cases t with
      | nil => exact absurd h2 (by simp [psw_nil_cons])
      | cons b t =>
          cases p with
          | nil => exact absurd h1 (by simp [psw_nil_cons])
          | cons a p =>
              simp only [psw_cons, Bool.and_eq_true, beq_iff_eq] at h1 h2 ⊢
              exact ⟨h1.1.trans h2.1, ih h1.2 h2.2⟩

theorem psw_length {p t : FPath} (h : pathStartsWith p t = true) :
    t.length ≤ p.length := by
  induction t generalizing p with
  | nil => simp
  | cons b t ih =>
      cases p with
      | nil => exact absurd h (by simp [psw_nil_cons])
      | cons a p =>
          simp only [psw_cons, Bool.and_eq_true] at h
          simpa using ih h.2

theorem psw_eq_of_length {p t : FPath} (h : pathStartsWith p t = true)
    (hl : p.length = t.length) : p = t := by
  induction t generalizing p with
  | nil => cases p <;> simp_all
  | cons b t ih =>
      cases p with
      | nil => exact absurd h (by simp [psw_nil_cons])
      | cons a p =>
          simp only [psw_cons, Bool.and_eq_true, beq_iff_eq] at h
          simp only [List.length_cons, Nat.succ_inj] at hl
          simp [h.1, ih h.2 hl]

theorem psw_both_same_length {p t s : FPath} (h1 : pathStartsWith p t = true)
    (h2 : pathStartsWith p s = true) (hl : t.length = s.length) : t = s := by
  induction p generalizing t s with
  | nil =>
      cases t with
      | nil => cases s with
        | nil => rfl
        | cons c s => exact absurd h2 (by simp [psw_nil_cons])
      | cons b t => exact absurd h1 (by simp [psw_nil_cons])
  | cons a p ih =>
      cases t with
      | nil => cases s with
        | nil => rfl
        | cons c s => simp at hl
      | cons b t =>
          cases s with
          | nil => simp at hl
          | cons c s =>
              simp only [psw_cons, Bool.and_eq_true, beq_iff_eq] at h1 h2
              simp only [List.length_cons, Nat.succ_inj] at hl
              rw [← h1.1, ← h2.1]
              simp [ih h1.2 h2.2 hl]

theorem psw_snoc_elim {d q : FPath} {x : String}
    (h : pathStartsWith (d ++ [x]) q = true) :
    pathStartsWith d q = true ∨ q = d ++ [x] := by
  induction d generalizing q with
  | nil =>
      cases q with
      | nil => exact Or.inl rfl
      | cons c s =>
          simp only [List.nil_append, psw_cons] at h
          cases s with
          | nil =>
              simp only [Bool.and_eq_true, beq_iff_eq] at h
              exact Or.inr (by simp [h.1])
          | cons c2 s2 => simp [psw_nil_cons] at h
  | cons a d ih =>
      cases q with
      | nil => exact Or.inl (psw_nil _)
      | cons c s =>
          simp only [List.cons_append, psw_cons, Bool.and_eq_true, beq_iff_eq] at h ⊢
          rcases ih h.2 with h2 | h2
          · exact Or.inl ⟨h.1, h2⟩
          · exact Or.inr (by simp [h.1, h2])

/-! ## Pointwise behaviour of the filesystem operations -/

theorem files_writeFile (fs : FS) (p : FPath) (c : String) (q : FPath) :
    (fs.writeFile p c).files q = if q = p then some c else fs.files q := rfl

theorem dirs_writeFile (fs : FS) (p : FPath) (c : String) (q : FPath) :
    (fs.writeFile p c).dirs q = fs.dirs q := rfl

theorem files_mkdirp (fs : FS) (p : FPath) (q : FPath) :
    (fs.mkdirp p).files q = fs.files q := rfl

theorem dirs_mkdirp (fs : FS) (p : FPath) (q : FPath) :
    (fs.mkdirp p).dirs q = if pathStartsWith p q then true else fs.dirs q := rfl

theorem files_removeTree (fs : FS) (t : FPath) (q : FPath) :
    (fs.removeTree t).files q = if pathStartsWith q t then none else fs.files q := rfl

theorem dirs_removeTree (fs : FS) (t : FPath) (q : FPath) :
    (fs.removeTree t).dirs q = if pathStartsWith q t then false else fs.dirs q := rfl

theorem files_unlink (fs : FS) (p : FPath) (q : FPath) :
    (fs.unlink p).files q = if q = p then none else fs.files q := rfl

theorem dirs_unlink (fs : FS) (p : FPath) (q : FPath) :
    (fs.unlink p).dirs q = fs.dirs q := rfl

/-! ## Claim C6: interpretation of the operator's answer -/

/-- Following the spec's words: the line is affirmative when it
"case-insensitively equals `\x22y\x22`", i.e. when lowering both sides makes
them equal. -/
def specCaseInsensitiveYes (s : String) : Bool :=
  lowerString s == lowerString "y"

/-- C6: `confirm` returns affirmative iff the line read case-insensitively
equals "y"; every other line, the empty line included, is a decline. -/
theorem C6_confirm_iff_case_insensitive_y :
    (∀ s : String, isYes s = specCaseInsensitiveYes s) ∧ isYes "" = false := by
  constructor
  · intro s
    have h : lowerString "y" = "y" := by decide
    simp [isYes, specCaseInsensitiveYes, h]
  · decide

/-! ## Claim C7: the contract of `removeRecursive` -/

/-- C7: `removeRecursive target` returns `false` and leaves the filesystem
untouched when `target` does not exist; when it exists it returns `true`,
`target` no longer exists afterwards, nothing outside `target`'s subtree is
touched, a directory loses its whole subtree, and a non-directory is
removed alone.  (Permission and I/O failures are outside the model; the
filesystem maps are total.) -/
theorem C7_removeRecursive_contract (fs : FS) (t : FPath) :
    (fs.pathExists t = false → removeRecursive fs t = (false, fs)) ∧
    (fs.pathExists t = true →
      (removeRecursive fs t).1 = true ∧
      (removeRecursive fs t).2.pathExists t = false ∧
      (∀ p, pathStartsWith p t = false →
        (removeRecursive fs t).2.files p = fs.files p ∧
        (removeRecursive fs t).2.dirs p = fs.dirs p) ∧
      (fs.dirs t = true → ∀ p, pathStartsWith p t = true →
        (removeRecursive fs t).2.files p = none ∧
        (removeRecursive fs t).2.dirs p = false) ∧
      (fs.dirs t = false → ∀ p, p ≠ t →
        (removeRecursive fs t).2.files p = fs.files p ∧
        (removeRecursive fs t).2.dirs p = fs.dirs p)) := by
  constructor
  · intro h
    simp [removeRecursive, h]
  · intro h
    by_cases hd : fs.dirs t = true
    · refine ⟨by simp [removeRecursive, h, hd], ?_, ?_, ?_, ?_⟩
      · simp [removeRecursive, h, hd, FS.pathExists, files_removeTree, dirs_removeTree,
          psw_refl]
      · intro p hp
        simp [removeRecursive, h, hd, files_removeTree, dirs_removeTree, hp]
      · intro _ p hp
        simp [removeRecursive, h, hd, files_removeTree, dirs_removeTree, hp]
      · intro hcontra
        rw [hd] at hcontra
        exact absurd hcontra (by simp)
    · have hd' : fs.dirs t = false := by simpa using hd
      have hf : ¬ (fs.files t = none) := by
        simp only [FS.pathExists, hd', Bool.or_false] at h
        intro hn
        rw [hn] at h
        exact absurd h (by simp)
      refine ⟨by simp [removeRecursive, h, hd'], ?_, ?_, ?_, ?_⟩
      · simp [removeRecursive, h, hd', hf, FS.pathExists, files_unlink, dirs_unlink]
      · intro p hp
        have hne : p ≠ t := by
          intro he
          rw [he, psw_refl] at hp
          exact absurd hp (by simp)
        simp [removeRecursive, h, hd', files_unlink, dirs_unlink, hne]
      · intro hcontra
        rw [hd'] at hcontra
        exact absurd hcontra (by simp)
      · intro _ p hp
        simp [removeRecursive, h, hd', files_unlink, dirs_unlink, hp]

/-- A tiny concrete filesystem used by the witnesses: one file
`r/commands/mine.md` with content "hello", directories `r` and
`r/commands`. -/
def fsWitness : FS :=
  ⟨fun q => if q = ["r", "commands", "mine.md"] then some "hello" else none,
   fun q => q = ["r"] || q = ["r", "commands"]⟩

/-- Witness for C7, evaluated at `fsWitness`: removing the existing file
returns `true` and leaves the sibling directory untouched; removing a
missing path returns `false`. -/
theorem C7_removeRecursive_contract_witness :
    removeRecursive fsWitness ["missing"] = (false, fsWitness) ∧
    (removeRecursive fsWitness ["r", "commands", "mine.md"]).1 = true ∧
    (removeRecursive fsWitness ["r", "commands", "mine.md"]).2.pathExists
      ["r", "commands", "mine.md"] = false := by
  refine ⟨(C7_removeRecursive_contract fsWitness ["missing"]).1 (by decide), ?_, ?_⟩
  · exact ((C7_removeRecursive_contract fsWitness ["r", "commands", "mine.md"]).2
      (by decide)).1
  · exact ((C7_removeRecursive_contract fsWitness ["r", "commands", "mine.md"]).2
      (by decide)).2.1

/-! ## Claim C8: uninstall with nothing to remove -/

/-- C8: when no manifest-listed entry exists under the destination root,
the uninstall flow reports "nothing to remove" (`nothingFound`), performs
no filesystem mutation, and terminates with exit code 0. -/
theorem C8_uninstall_nothing_to_remove (auto : Bool) (ans : String) (root : FPath) (fs : FS)
    (h : ∀ g ∈ INSTALLED_ITEMS, ∀ item ∈ g.2, fs.pathExists (root ++ [g.1, item]) = false) :
    uninstallFlow auto ans root fs = ⟨.nothingFound, 0, 0, fs⟩ := by
  have hscan : uninstallScan root fs = [] := by
    unfold uninstallScan
    rw [List.flatMap_eq_nil_iff]
    intro g hg
    rw [List.map_eq_nil_iff, List.filter_eq_nil_iff]
    intro item hitem
    simp [h g hg item hitem]
  unfold uninstallFlow
  simp [hscan]

/-- Witness for C8: a destination where the root does not exist at all. -/
theorem C8_uninstall_nothing_to_remove_witness :
    uninstallFlow false "" ["home", ".claude"] ⟨fun _ => none, fun _ => false⟩ =
      ⟨.nothingFound, 0, 0, ⟨fun _ => none, fun _ => false⟩⟩ :=
  C8_uninstall_nothing_to_remove false "" ["home", ".claude"]
    ⟨fun _ => none, fun _ => false⟩ (by decide)

/-! ## Claim C5: declining the install confirmation is a no-op -/

/-- C5: when some available group's destination directory already exists
(a conflict), auto-confirm is off and the operator's answer is not `y`,
the install flow ends in the `cancelled` state with exit code 0 and the
filesystem value is returned unchanged. -/
theorem C5_install_decline_noop (src : List (String × FTree)) (ans : String)
    (root : FPath) (fs : FS)
    (hconf : ∃ d ∈ CUSTOMIZATION_DIRS,
      (lookupEntry src d).isSome = true ∧ fs.pathExists (root ++ [d]) = true)
    (hno : isYes ans = false) :
    installFlow src false ans root fs = ⟨.cancelled, 0, true, fs⟩ := by
  obtain ⟨d, hd, hsome, hex⟩ := hconf
  have hmem : d ∈ availableDirs src := List.mem_filter.mpr ⟨hd, hsome⟩
  have hav : (availableDirs src).isEmpty = false :=
    List.isEmpty_eq_false.mpr (List.ne_nil_of_mem hmem)
  have hmem2 : d ∈ existingDirs src root fs := List.mem_filter.mpr ⟨hmem, hex⟩
  have hpr : installPrompted src false root fs = true := by
    unfold installPrompted
    rw [List.isEmpty_eq_false.mpr (List.ne_nil_of_mem hmem2)]
    rfl
  unfold installFlow
  simp [hav, hpr, hno]

/-- Witness for C5: destination already has the `commands` directory, the
answer is `"n"`; the run cancels and mutates nothing. -/
theorem C5_install_decline_noop_witness :
    installFlow [("commands", .dir [("a.md", .file "x")])] false "n" ["r"] fsWitness =
      ⟨.cancelled, 0, true, fsWitness⟩ :=
  C5_install_decline_noop [("commands", .dir [("a.md", .file "x")])] "n" ["r"] fsWitness
    ⟨"commands", by decide, by decide, by decide⟩ (by decide)

/-! ## Claim C2: what triggers the install confirmation prompt -/

/-- Following the spec's words for C2: the "fine-grained manifest-level
overwrite set" — exactly which manifest-listed destination files of the
groups present in the source would be overwritten, i.e. already exist. -/
def specFineOverwriteSet (src : List (String × FTree)) (root : FPath) (fs : FS) :
    List (String × String) :=
  INSTALLED_ITEMS.flatMap (fun g =>
    if (lookupEntry src g.1).isSome then
      (g.2.filter (fun item => fs.pathExists (root ++ [g.1, item]))).map (fun item => (g.1, item))
    else [])

/-- A destination whose `commands` group directory exists but contains no
file at all: the coarse check fires, the fine-grained overwrite set is
empty. -/
def fsEmptyCommandsDir : FS :=
  ⟨fun _ => none, fun q => q = ["r"] || q = ["r", "commands"]⟩

/-- Counterexample to C2 as stated: with an existing but empty `commands`
destination directory and auto-confirm off, the program prompts although
the fine-grained manifest-level overwrite set is empty — the prompt is
triggered by the coarse directory-existence check alone. -/
theorem C2_counterexample :
    ¬ (((installFlow [("commands", .dir [("a.md", .file "x")])] false "n" ["r"]
          fsEmptyCommandsDir).prompted = true) ↔
        (specFineOverwriteSet [("commands", .dir [("a.md", .file "x")])] ["r"]
          fsEmptyCommandsDir ≠ [] ∧ (false : Bool) = false)) := by
  decide

/-- The `prompted` field of the flow's outcome, over all branches. -/
theorem installFlow_prompted (src : List (String × FTree)) (auto : Bool)
    (ans : String) (root : FPath) (fs : FS) :
    (installFlow src auto ans root fs).prompted =
      (!(availableDirs src).isEmpty && installPrompted src auto root fs) := by
  unfold installFlow
  by_cases hav : (availableDirs src).isEmpty = true
  · simp [hav]
  · have hav' : (availableDirs src).isEmpty = false := by simpa using hav
    rw [hav']
    simp only [Bool.not_false, Bool.true_and, Bool.false_eq_true, if_false]
    split <;> rfl

/-- C2 amended: the install flow performs only the coarse per-group check —
the confirmation prompt is shown precisely when some available group's
destination directory already exists and auto-confirm is not active. -/
theorem C2_amended_prompt_iff_coarse (src : List (String × FTree)) (auto : Bool)
    (ans : String) (root : FPath) (fs : FS) :
    (installFlow src auto ans root fs).prompted = true ↔
      ((∃ d ∈ CUSTOMIZATION_DIRS,
        (lookupEntry src d).isSome = true ∧ fs.pathExists (root ++ [d]) = true) ∧
       auto = false) := by
  rw [installFlow_prompted]
  unfold installPrompted
  constructor
  · intro h
    rw [Bool.and_eq_true, Bool.and_eq_true] at h
    obtain ⟨_, hne2, hauto⟩ := h
    rw [Bool.not_eq_true', List.isEmpty_eq_false] at hne2
    obtain ⟨d, hdmem⟩ := List.exists_mem_of_ne_nil _ hne2
    unfold existingDirs availableDirs at hdmem
    rw [List.mem_filter] at hdmem
    obtain ⟨hd1, hdex⟩ := hdmem
    rw [List.mem_filter] at hd1
    refine ⟨⟨d, hd1.1, hd1.2, hdex⟩, ?_⟩
    simpa using hauto
  · rintro ⟨⟨d, hd, hsome, hex⟩, hauto⟩
    have hmem : d ∈ availableDirs src := List.mem_filter.mpr ⟨hd, hsome⟩
    have hmem2 : d ∈ existingDirs src root fs := List.mem_filter.mpr ⟨hmem, hex⟩
    have h1 : (availableDirs src).isEmpty = false :=
      List.isEmpty_eq_false.mpr (List.ne_nil_of_mem hmem)
    have h2 : (existingDirs src root fs).isEmpty = false :=
      List.isEmpty_eq_false.mpr (List.ne_nil_of_mem hmem2)
    simp [h1, h2, hauto]

/-! ## Removal lemmas -/

/-- `manifestMem g item`: the manifest names `item` inside group `g`. -/
def manifestMem (g item : String) : Prop := item ∈ manifestItems g

instance (g item : String) : Decidable (manifestMem g item) := by
  unfold manifestMem
  infer_instance

theorem manifest_lookup {g : String} {items : List String}
    (h : (g, items) ∈ INSTALLED_ITEMS) : manifestItems g = items := by
  simp only [INSTALLED_ITEMS, List.mem_cons, List.mem_singleton, Prod.mk.injEq,
    List.not_mem_nil, or_false] at h
  rcases h with ⟨hg, hi⟩ | ⟨hg, hi⟩ <;> subst hg <;> subst hi <;> rfl

theorem rr_frame (fs : FS) (t : FPath) (p : FPath) (hp : pathStartsWith p t = false) :
    (removeRecursive fs t).2.files p = fs.files p ∧
    (removeRecursive fs t).2.dirs p = fs.dirs p := by
  have hne : p ≠ t := by
    intro he
    rw [he] at hp
    simp [psw_refl] at hp
  unfold removeRecursive
  by_cases h1 : fs.pathExists t = false
  · simp [h1]
  · by_cases h2 : fs.dirs t = true
    · simp [h1, h2, files_removeTree, dirs_removeTree, hp]
    · simp [h1, h2, files_unlink, dirs_unlink, hne]

theorem rr_mono (fs : FS) (t : FPath) (p : FPath) :
    ((removeRecursive fs t).2.files p = fs.files p ∨ (removeRecursive fs t).2.files p = none) ∧
    ((removeRecursive fs t).2.dirs p = fs.dirs p ∨ (removeRecursive fs t).2.dirs p = false) := by
  unfold removeRecursive
  by_cases h1 : fs.pathExists t = false
  · simp [h1]
  · by_cases h2 : fs.dirs t = true
    · by_cases hp : pathStartsWith p t = true
      · simp [h1, h2, files_removeTree, dirs_removeTree, hp]
      · have hp' : pathStartsWith p t = false := by simpa using hp
        simp [h1, h2, files_removeTree, dirs_removeTree, hp']
    · by_cases hp : p = t
      · simp [h1, h2, files_unlink, dirs_unlink, hp]
      · simp [h1, h2, files_unlink, dirs_unlink, hp]

theorem runRemovals_nil (root : FPath) (a : Nat × FS) : runRemovals root [] a = a := rfl

theorem runRemovals_cons (root : FPath) (gi : String × String) (L : List (String × String))
    (a : Nat × FS) :
    runRemovals root (gi :: L) a =
      runRemovals root L
        (a.1 + (if (removeRecursive a.2 (root ++ [gi.1, gi.2])).1 then 1 else 0),
         (removeRecursive a.2 (root ++ [gi.1, gi.2])).2) := rfl

theorem runRemovals_frame (root : FPath) :
    ∀ (L : List (String × String)) (a : Nat × FS) (p : FPath),
    (∀ gi ∈ L, pathStartsWith p (root ++ [gi.1, gi.2]) = false) →
    (runRemovals root L a).2.files p = a.2.files p ∧
    (runRemovals root L a).2.dirs p = a.2.dirs p := by
  intro L
  induction L with
  | nil => intro a p _; exact ⟨rfl, rfl⟩
  | cons gi L ih =>
      intro a p h
      rw [runRemovals_cons]
      have hf := rr_frame a.2 (root ++ [gi.1, gi.2]) p (h gi (List.mem_cons_self _ _))
      have hrest := ih
        (a.1 + (if (removeRecursive a.2 (root ++ [gi.1, gi.2])).1 then 1 else 0),
         (removeRecursive a.2 (root ++ [gi.1, gi.2])).2) p
        (fun gj hj => h gj (List.mem_cons_of_mem _ hj))
      exact ⟨hrest.1.trans hf.1, hrest.2.trans hf.2⟩

theorem runRemovals_mono (root : FPath) :
    ∀ (L : List (String × String)) (a : Nat × FS) (p : FPath),
    ((runRemovals root L a).2.files p = a.2.files p ∨ (runRemovals root L a).2.files p = none) ∧
    ((runRemovals root L a).2.dirs p = a.2.dirs p ∨ (runRemovals root L a).2.dirs p = false) := by
  intro L
  induction L with
  | nil => intro a p; exact ⟨Or.inl rfl, Or.inl rfl⟩
  | cons gi L ih =>
      intro a p
      rw [runRemovals_cons]
      set b := (a.1 + (if (removeRecursive a.2 (root ++ [gi.1, gi.2])).1 then 1 else 0),
        (removeRecursive a.2 (root ++ [gi.1, gi.2])).2) with hb
      have hm := rr_mono a.2 (root ++ [gi.1, gi.2]) p
      have hr := ih b p
      constructor
      · rcases hr.1 with h | h
        · rw [h, hb]
          exact hm.1
        · exact Or.inr h
      · rcases hr.2 with h | h
        · rw [h, hb]
          exact hm.2
        · exact Or.inr h

theorem uninstallScan_mem (root : FPath) (fs : FS) (gi : String × String) :
    gi ∈ uninstallScan root fs ↔
      ∃ items, (gi.1, items) ∈ INSTALLED_ITEMS ∧ gi.2 ∈ items ∧
        fs.pathExists (root ++ [gi.1, gi.2]) = true := by
  unfold uninstallScan
  rw [List.mem_flatMap]
  constructor
  · rintro ⟨g, hg, hmem⟩
    rw [List.mem_map] at hmem
    obtain ⟨item, hitem, heq⟩ := hmem
    rw [List.mem_filter] at hitem
    refine ⟨g.2, ?_, ?_, ?_⟩
    · rw [← heq]
      simpa using hg
    · rw [← heq]
      exact hitem.1
    · rw [← heq]
      exact hitem.2
  · rintro ⟨items, hinst, hitem, hex⟩
    refine ⟨(gi.1, items), hinst, List.mem_map.mpr ⟨gi.2, List.mem_filter.mpr ⟨hitem, hex⟩, ?_⟩⟩
    simp

theorem uninstallScan_manifest {root : FPath} {fs : FS} {gi : String × String}
    (h : gi ∈ uninstallScan root fs) :
    manifestMem gi.1 gi.2 ∧ fs.pathExists (root ++ [gi.1, gi.2]) = true := by
  rw [uninstallScan_mem] at h
  obtain ⟨items, hinst, hitem, hex⟩ := h
  exact ⟨by rw [manifestMem, manifest_lookup hinst]; exact hitem, hex⟩

/-- The final filesystem of the uninstall flow is the filesystem of the
removal loop in the `completed` case and the input otherwise. -/
theorem uninstallFlow_fs_cases (auto : Bool) (ans : String) (root : FPath) (fs : FS) :
    (uninstallFlow auto ans root fs).fs = fs ∨
    (uninstallFlow auto ans root fs).fs = (runRemovals root (uninstallScan root fs) (0, fs)).2 := by
  unfold uninstallFlow
  by_cases h1 : (uninstallScan root fs).isEmpty = true
  · simp [h1]
  · have h1' : (uninstallScan root fs).isEmpty = false := by simpa using h1
    by_cases h2 : (!auto && !(isYes ans)) = true
    · simp [h1', h2]
    · have h2' : (!auto && !(isYes ans)) = false := by simpa using h2
      simp [h1', h2']

/-! ## Claim C3: uninstall exactness -/

/-- C3: the uninstall flow only ever changes paths lying below a
manifest-listed destination path; in particular a file placed by the
operator directly in a group directory under a name the manifest does not
list survives untouched (same content, same directory flag). -/
theorem C3_uninstall_exactness (auto : Bool) (ans : String) (root : FPath) (fs : FS) :
    (∀ p, (uninstallFlow auto ans root fs).fs.files p ≠ fs.files p →
      ∃ g item, manifestMem g item ∧ pathStartsWith p (root ++ [g, item]) = true) ∧
    (∀ g name, ¬ manifestMem g name →
      (uninstallFlow auto ans root fs).fs.files (root ++ [g, name]) =
        fs.files (root ++ [g, name]) ∧
      (uninstallFlow auto ans root fs).fs.dirs (root ++ [g, name]) =
        fs.dirs (root ++ [g, name])) := by
  rcases uninstallFlow_fs_cases auto ans root fs with hfs | hfs
  · constructor
    · intro p hp
      rw [hfs] at hp
      exact absurd rfl hp
    · intro g name _
      rw [hfs]
      exact ⟨rfl, rfl⟩
  · constructor
    · intro p hp
      rw [hfs] at hp
      by_cases hex : ∃ g item, manifestMem g item ∧ pathStartsWith p (root ++ [g, item]) = true
      · exact hex
      · exfalso
        push_neg at hex
        refine hp ((runRemovals_frame root (uninstallScan root fs) (0, fs) p ?_).1)
        intro gi hgi
        have hman := (uninstallScan_manifest hgi).1
        by_cases hb : pathStartsWith p (root ++ [gi.1, gi.2]) = true
        · exact absurd hb (by simpa using hex gi.1 gi.2 hman)
        · simpa using hb
    · intro g name hname
      rw [hfs]
      refine runRemovals_frame root (uninstallScan root fs) (0, fs) (root ++ [g, name]) ?_
      intro gi hgi
      have hman := (uninstallScan_manifest hgi).1
      by_cases hb : pathStartsWith (root ++ [g, name]) (root ++ [gi.1, gi.2]) = true
      · exfalso
        rw [psw_append_both] at hb
        simp only [psw_cons, psw_nil, Bool.and_true, Bool.and_eq_true, beq_iff_eq] at hb
        obtain ⟨hg, hn⟩ := hb
        rw [← hg, ← hn] at hman
        exact hname hman
      · simpa using hb

/-- Witness for C3: the operator file `r/commands/mine.md` (not a manifest
name) survives an auto-confirmed uninstall run over `fsWitness`. -/
theorem C3_uninstall_exactness_witness :
    (uninstallFlow true "" ["r"] fsWitness).fs.files (["r"] ++ ["commands", "mine.md"]) =
      some "hello" := by
  have h := ((C3_uninstall_exactness true "" ["r"] fsWitness).2 "commands" "mine.md"
    (by decide)).1
  rw [h]
  decide

/-! ## Claim C10: uninstall never creates or writes -/

/-- C10: in every branch of the uninstall flow, any path whose file content
or directory flag differs from the input was removed (made `none` / `false`),
and it lies below a manifest path that existed when the flow scanned the
filesystem; nothing is ever created or written. -/
theorem C10_uninstall_only_removes (auto : Bool) (ans : String) (root : FPath) (fs : FS) :
    (∀ p, (uninstallFlow auto ans root fs).fs.files p ≠ fs.files p →
      (uninstallFlow auto ans root fs).fs.files p = none ∧
      ∃ g item, manifestMem g item ∧ fs.pathExists (root ++ [g, item]) = true ∧
        pathStartsWith p (root ++ [g, item]) = true) ∧
    (∀ p, (uninstallFlow auto ans root fs).fs.dirs p ≠ fs.dirs p →
      (uninstallFlow auto ans root fs).fs.dirs p = false ∧
      ∃ g item, manifestMem g item ∧ fs.pathExists (root ++ [g, item]) = true ∧
        pathStartsWith p (root ++ [g, item]) = true) := by
  rcases uninstallFlow_fs_cases auto ans root fs with hfs | hfs
  · rw [hfs]
    exact ⟨fun p hp => absurd rfl hp, fun p hp => absurd rfl hp⟩
  · have hsub : ∀ p, (∀ gi ∈ uninstallScan root fs,
        pathStartsWith p (root ++ [gi.1, gi.2]) = false) ∨
        ∃ g item, manifestMem g item ∧ fs.pathExists (root ++ [g, item]) = true ∧
          pathStartsWith p (root ++ [g, item]) = true := by
      intro p
      by_cases hex : ∃ gi ∈ uninstallScan root fs,
          pathStartsWith p (root ++ [gi.1, gi.2]) = true
      · obtain ⟨gi, hgi, hb⟩ := hex
        obtain ⟨hman, hexi⟩ := uninstallScan_manifest hgi
        exact Or.inr ⟨gi.1, gi.2, hman, hexi, hb⟩
      · push_neg at hex
        refine Or.inl (fun gi hgi => ?_)
        have := hex gi hgi
        simpa using this
    constructor
    · intro p hp
      rw [hfs] at hp ⊢
      rcases hsub p with hfr | hman
      · exact absurd ((runRemovals_frame root _ _ p hfr).1) hp
      · rcases (runRemovals_mono root (uninstallScan root fs) (0, fs) p).1 with h | h
        · exact absurd h hp
        · exact ⟨h, hman⟩
    · intro p hp
      rw [hfs] at hp ⊢
      rcases hsub p with hfr | hman
      · exact absurd ((runRemovals_frame root _ _ p hfr).2) hp
      · rcases (runRemovals_mono root (uninstallScan root fs) (0, fs) p).2 with h | h
        · exact absurd h hp
        · exact ⟨h, hman⟩

/-- A concrete destination holding one manifest-listed file,
`r/commands/davenov:cc:rule.md`. -/
def fsManifest : FS :=
  ⟨fun q => if q = ["r", "commands", "davenov:cc:rule.md"] then some "m" else none,
   fun q => q = ["r"] || q = ["r", "commands"]⟩

/-- Witness for C10: the auto-confirmed uninstall over `fsManifest` changes
the manifest file's path, and the theorem certifies the change is a removal. -/
theorem C10_uninstall_only_removes_witness :
    (uninstallFlow true "" ["r"] fsManifest).fs.files
      ["r", "commands", "davenov:cc:rule.md"] = none :=
  (((C10_uninstall_only_removes true "" ["r"] fsManifest).1
    ["r", "commands", "davenov:cc:rule.md"] (by decide))).1

/-! ## More path helpers -/

theorem psw_nil_left {q : FPath} (h : pathStartsWith [] q = true) : q = [] := by
  cases q with
  | nil => rfl
  | cons c s => simp [psw_nil_cons] at h

theorem psw_head {q : FPath} {x : String} (h : pathStartsWith q [x] = true) :
    ∃ q2, q = x :: q2 := by
  cases q with
  | nil => simp [psw_nil_cons] at h
  | cons a q2 =>
      rw [psw_cons, Bool.and_eq_true, beq_iff_eq] at h
      exact ⟨q2, by rw [h.1]⟩

theorem append_cons_ne (d : FPath) (x : String) (q : FPath) : d ++ x :: q ≠ d := by
  intro h
  have := congrArg List.length h
  simp at this

theorem psw_self_append_cons (d : FPath) (x : String) (q : FPath) :
    pathStartsWith d (d ++ x :: q) = false := by
  by_cases h : pathStartsWith d (d ++ x :: q) = true
  · have := psw_length h
    simp at this
  · simpa using h

/-! ## Derived lookups in a source tree -/

/-- `entriesFileAt` lifted to a whole relative path (the empty path is the
directory itself, never a file). -/
def entriesFileAtPath (l : List (String × FTree)) : FPath → Option String
  | [] => none
  | n :: q => entriesFileAt l n q

/-- `entriesReaches` lifted to a whole relative path (the empty path is the
directory itself). -/
def entriesReachesPath (l : List (String × FTree)) : FPath → Bool
  | [] => true
  | n :: q => entriesReaches l n q

theorem entriesFileAt_not_mem :
    ∀ (l : List (String × FTree)) (n : String) (q : FPath), n ∉ l.map Prod.fst →
      entriesFileAt l n q = none := by
  intro l
  induction l with
  | nil => intro n q _; rfl
  | cons e rest ih =>
      intro n q h
      obtain ⟨m, t⟩ := e
      simp only [List.map_cons, List.mem_cons] at h
      push_neg at h
      rw [entriesFileAt, ih n q h.2]
      simp [h.1]

theorem entriesReaches_not_mem :
    ∀ (l : List (String × FTree)) (n : String) (q : FPath), n ∉ l.map Prod.fst →
      entriesReaches l n q = false := by
  intro l
  induction l with
  | nil => intro n q _; rfl
  | cons e rest ih =>
      intro n q h
      obtain ⟨m, t⟩ := e
      simp only [List.map_cons, List.mem_cons] at h
      push_neg at h
      rw [entriesReaches, ih n q h.2]
      simp [h.1]

theorem entriesReaches_mem {l : List (String × FTree)} {n : String} {q : FPath}
    (h : entriesReaches l n q = true) : n ∈ l.map Prod.fst := by
  by_cases hm : n ∈ l.map Prod.fst
  · exact hm
  · rw [entriesReaches_not_mem l n q hm] at h
    exact absurd h (by simp)

theorem entriesFileAt_nodup :
    ∀ (l : List (String × FTree)) (n : String) (t : FTree) (q : FPath),
      (l.map Prod.fst).Nodup → (n, t) ∈ l → entriesFileAt l n q = treeFileAt t q := by
  intro l
  induction l with
  | nil => intro n t q _ hmem; simp at hmem
  | cons e rest ih =>
      intro n t q hnd hmem
      obtain ⟨m, tm⟩ := e
      simp only [List.map_cons, List.nodup_cons] at hnd
      rcases List.mem_cons.mp hmem with he | he
      · have hne : n = m ∧ t = tm := by
          have := Prod.mk.injEq n t m tm ▸ congrArg id he
          exact ⟨congrArg Prod.fst he, congrArg Prod.snd he⟩
        obtain ⟨h1, h2⟩ := hne
        subst h1
        subst h2
        rw [entriesFileAt, entriesFileAt_not_mem rest n q hnd.1]
        simp
      · have hnm : n ≠ m := by
          intro he2
          subst he2
          exact hnd.1 (List.mem_map.mpr ⟨(n, t), he, rfl⟩)
        rw [entriesFileAt, ih n t q hnd.2 he]
        cases h : treeFileAt t q <;> simp [h, hnm]

theorem entriesReaches_nodup :
    ∀ (l : List (String × FTree)) (n : String) (t : FTree) (q : FPath),
      (l.map Prod.fst).Nodup → (n, t) ∈ l → entriesReaches l n q = treeReaches t q := by
  intro l
  induction l with
  | nil => intro n t q _ hmem; simp at hmem
  | cons e rest ih =>
      intro n t q hnd hmem
      obtain ⟨m, tm⟩ := e
      simp only [List.map_cons, List.nodup_cons] at hnd
      rcases List.mem_cons.mp hmem with he | he
      · obtain ⟨h1, h2⟩ : n = m ∧ t = tm :=
          ⟨congrArg Prod.fst he, congrArg Prod.snd he⟩
        subst h1
        subst h2
        rw [entriesReaches, entriesReaches_not_mem rest n q hnd.1]
        simp
      · have hnm : n ≠ m := by
          intro he2
          subst he2
          exact hnd.1 (List.mem_map.mpr ⟨(n, t), he, rfl⟩)
        rw [entriesReaches, ih n t q hnd.2 he]
        simp [hnm]

theorem treeFileAt_reaches :
    ∀ (t : FTree) (q : FPath), treeFileAt t q ≠ none → treeReaches t q = true := by
  have h := treeFileAt.induct
    (fun t q => treeFileAt t q ≠ none → treeReaches t q = true)
    (fun l n q => entriesFileAt l n q ≠ none → entriesReaches l n q = true)
  refine fun t q => h ?_ ?_ ?_ ?_ ?_ ?_ ?_ ?_ t q
  · intro c _
    rfl
  · intro a hd tl hcon
    exact absurd rfl hcon
  · intro l hcon
    exact absurd rfl hcon
  · intro l n q ih hcon
    rw [treeFileAt] at hcon
    rw [treeReaches]
    exact ih hcon
  · intro n q hcon
    exact absurd rfl hcon
  · intro m t rest n q c hsome ih _
    rw [entriesReaches, ih (by simp [hsome]), Bool.or_true]
  · intro t rest n q hnone _ iht hcon
    rw [entriesFileAt, hnone] at hcon
    simp only [if_pos rfl] at hcon
    rw [entriesReaches, iht hcon]
    simp
  · intro m t rest n q hnone hnm _ hcon
    rw [entriesFileAt, hnone] at hcon
    simp [hnm] at hcon

/-! ## Frame and characterisation lemmas for `copyRecursive` -/

theorem copy_files_frame_all :
    (∀ (t : FTree) (dest : FPath) (fs : FS) (p : FPath), pathStartsWith p dest = false →
      (copyRecursive t dest fs).files p = fs.files p) ∧
    (∀ (l : List (String × FTree)) (dest : FPath) (fs : FS) (p : FPath),
      pathStartsWith p dest = false → (copyEntries l dest fs).files p = fs.files p) := by
  have h1 : ∀ (c : String) (dest : FPath) (fs : FS), ∀ p, pathStartsWith p dest = false →
      (copyRecursive (.file c) dest fs).files p = fs.files p := by
    intro c dest fs p hp
    have hne : p ≠ dest := by
      intro he
      rw [he, psw_refl] at hp
      cases hp
    simp [copyRecursive, files_writeFile, hne]
  have h2 : ∀ (entries : List (String × FTree)) (dest : FPath) (fs : FS),
      (∀ p, pathStartsWith p dest = false →
        (copyEntries entries dest (if fs.pathExists dest = true then fs else fs.mkdirp dest)).files p =
          (if fs.pathExists dest = true then fs else fs.mkdirp dest).files p) →
      ∀ p, pathStartsWith p dest = false →
        (copyRecursive (.dir entries) dest fs).files p = fs.files p := by
    intro entries dest fs ih p hp
    rw [copyRecursive]
    rw [ih p hp]
    by_cases h : fs.pathExists dest = true <;> simp [h, files_mkdirp]
  have h3 : ∀ (dest : FPath) (fs : FS), ∀ p, pathStartsWith p dest = false →
      (copyEntries [] dest fs).files p = fs.files p := by
    intro dest fs p _
    rfl
  have h4 : ∀ (n : String) (t : FTree) (rest : List (String × FTree)) (dest : FPath) (fs : FS),
      (∀ p, pathStartsWith p (dest ++ [n]) = false →
        (copyRecursive t (dest ++ [n]) fs).files p = fs.files p) →
      (∀ p, pathStartsWith p dest = false →
        (copyEntries rest dest (copyRecursive t (dest ++ [n]) fs)).files p =
          (copyRecursive t (dest ++ [n]) fs).files p) →
      ∀ p, pathStartsWith p dest = false →
        (copyEntries ((n, t) :: rest) dest fs).files p = fs.files p := by
    intro n t rest dest fs ih1 ih2 p hp
    have hp2 : pathStartsWith p (dest ++ [n]) = false := by
      by_cases hb : pathStartsWith p (dest ++ [n]) = true
      · exact absurd (psw_trans hb (psw_append dest [n])) (by simp [hp])
      · simpa using hb
    rw [copyEntries, ih2 p hp, ih1 p hp2]
  exact ⟨fun t dest fs =>
      copyRecursive.induct
        (fun t dest fs => ∀ p, pathStartsWith p dest = false →
          (copyRecursive t dest fs).files p = fs.files p)
        (fun l dest fs => ∀ p, pathStartsWith p dest = false →
          (copyEntries l dest fs).files p = fs.files p)
        h1 h2 h3 h4 t dest fs,
    fun l dest fs =>
      copyEntries.induct
        (fun t dest fs => ∀ p, pathStartsWith p dest = false →
          (copyRecursive t dest fs).files p = fs.files p)
        (fun l dest fs => ∀ p, pathStartsWith p dest = false →
          (copyEntries l dest fs).files p = fs.files p)
        h1 h2 h3 h4 l dest fs⟩

theorem copy_files_frame (t : FTree) (dest : FPath) (fs : FS) (p : FPath)
    (hp : pathStartsWith p dest = false) :
    (copyRecursive t dest fs).files p = fs.files p :=
  copy_files_frame_all.1 t dest fs p hp

theorem copyEntries_files_frame (l : List (String × FTree)) (dest : FPath) (fs : FS)
    (p : FPath) (hp : pathStartsWith p dest = false) :
    (copyEntries l dest fs).files p = fs.files p :=
  copy_files_frame_all.2 l dest fs p hp

theorem copy_dirs_frame_all :
    (∀ (t : FTree) (dest : FPath) (fs : FS) (p : FPath), pathStartsWith p dest = false →
      pathStartsWith dest p = false → (copyRecursive t dest fs).dirs p = fs.dirs p) ∧
    (∀ (l : List (String × FTree)) (dest : FPath) (fs : FS) (p : FPath),
      pathStartsWith p dest = false → pathStartsWith dest p = false →
      (copyEntries l dest fs).dirs p = fs.dirs p) := by
  have h1 : ∀ (c : String) (dest : FPath) (fs : FS), ∀ p, pathStartsWith p dest = false →
      pathStartsWith dest p = false → (copyRecursive (.file c) dest fs).dirs p = fs.dirs p := by
    intro c dest fs p _ _
    rfl
  have h2 : ∀ (entries : List (String × FTree)) (dest : FPath) (fs : FS),
      (∀ p, pathStartsWith p dest = false → pathStartsWith dest p = false →
        (copyEntries entries dest (if fs.pathExists dest = true then fs else fs.mkdirp dest)).dirs p =
          (if fs.pathExists dest = true then fs else fs.mkdirp dest).dirs p) →
      ∀ p, pathStartsWith p dest = false → pathStartsWith dest p = false →
        (copyRecursive (.dir entries) dest fs).dirs p = fs.dirs p := by
    intro entries dest fs ih p hp hq
    rw [copyRecursive, ih p hp hq]
    by_cases h : fs.pathExists dest = true
    · simp [h]
    · simp [h, dirs_mkdirp, hq]
  have h3 : ∀ (dest : FPath) (fs : FS), ∀ p, pathStartsWith p dest = false →
      pathStartsWith dest p = false → (copyEntries [] dest fs).dirs p = fs.dirs p := by
    intro dest fs p _ _
    rfl
  have h4 : ∀ (n : String) (t : FTree) (rest : List (String × FTree)) (dest : FPath) (fs : FS),
      (∀ p, pathStartsWith p (dest ++ [n]) = false → pathStartsWith (dest ++ [n]) p = false →
        (copyRecursive t (dest ++ [n]) fs).dirs p = fs.dirs p) →
      (∀ p, pathStartsWith p dest = false → pathStartsWith dest p = false →
        (copyEntries rest dest (copyRecursive t (dest ++ [n]) fs)).dirs p =
          (copyRecursive t (dest ++ [n]) fs).dirs p) →
      ∀ p, pathStartsWith p dest = false → pathStartsWith dest p = false →
        (copyEntries ((n, t) :: rest) dest fs).dirs p = fs.dirs p := by
    intro n t rest dest fs ih1 ih2 p hp hq
    have hp2 : pathStartsWith p (dest ++ [n]) = false := by
      by_cases hb : pathStartsWith p (dest ++ [n]) = true
      · exact absurd (psw_trans hb (psw_append dest [n])) (by simp [hp])
      · simpa using hb
    have hq2 : pathStartsWith (dest ++ [n]) p = false := by
      by_cases hb : pathStartsWith (dest ++ [n]) p = true
      · exfalso
        rcases psw_snoc_elim hb with hd | hd
        · exact absurd hd (by simp [hq])
        · rw [hd] at hp
          rw [psw_append] at hp
          cases hp
      · simpa using hb
    rw [copyEntries, ih2 p hp hq, ih1 p hp2 hq2]
  exact ⟨fun t dest fs =>
      copyRecursive.induct
        (fun t dest fs => ∀ p, pathStartsWith p dest = false → pathStartsWith dest p = false →
          (copyRecursive t dest fs).dirs p = fs.dirs p)
        (fun l dest fs => ∀ p, pathStartsWith p dest = false → pathStartsWith dest p = false →
          (copyEntries l dest fs).dirs p = fs.dirs p)
        h1 h2 h3 h4 t dest fs,
    fun l dest fs =>
      copyEntries.induct
        (fun t dest fs => ∀ p, pathStartsWith p dest = false → pathStartsWith dest p = false →
          (copyRecursive t dest fs).dirs p = fs.dirs p)
        (fun l dest fs => ∀ p, pathStartsWith p dest = false → pathStartsWith dest p = false →
          (copyEntries l dest fs).dirs p = fs.dirs p)
        h1 h2 h3 h4 l dest fs⟩

theorem copy_dirs_frame (t : FTree) (dest : FPath) (fs : FS) (p : FPath)
    (hp : pathStartsWith p dest = false) (hq : pathStartsWith dest p = false) :
    (copyRecursive t dest fs).dirs p = fs.dirs p :=
  copy_dirs_frame_all.1 t dest fs p hp hq

theorem copyEntries_dirs_frame (l : List (String × FTree)) (dest : FPath) (fs : FS)
    (p : FPath) (hp : pathStartsWith p dest = false) (hq : pathStartsWith dest p = false) :
    (copyEntries l dest fs).dirs p = fs.dirs p :=
  copy_dirs_frame_all.2 l dest fs p hp hq

theorem copy_files_under_all :
    (∀ (t : FTree) (dest : FPath) (fs : FS) (q : FPath),
      (copyRecursive t dest fs).files (dest ++ q) =
        match treeFileAt t q with
        | some c => some c
        | none => fs.files (dest ++ q)) ∧
    (∀ (l : List (String × FTree)) (dest : FPath) (fs : FS) (q : FPath),
      (copyEntries l dest fs).files (dest ++ q) =
        match entriesFileAtPath l q with
        | some c => some c
        | none => fs.files (dest ++ q)) := by
  have h1 : ∀ (c : String) (dest : FPath) (fs : FS), ∀ q,
      (copyRecursive (.file c) dest fs).files (dest ++ q) =
        match treeFileAt (FTree.file c) q with
        | some c => some c
        | none => fs.files (dest ++ q) := by
    intro c dest fs q
    cases q with
    | nil => simp [copyRecursive, files_writeFile, treeFileAt]
    | cons x q2 =>
        rw [treeFileAt]
        simp [copyRecursive, files_writeFile, append_cons_ne dest x q2]
  have h2 : ∀ (entries : List (String × FTree)) (dest : FPath) (fs : FS),
      (∀ q, (copyEntries entries dest (if fs.pathExists dest = true then fs else fs.mkdirp dest)).files (dest ++ q) =
        match entriesFileAtPath entries q with
        | some c => some c
        | none => (if fs.pathExists dest = true then fs else fs.mkdirp dest).files (dest ++ q)) →
      ∀ q, (copyRecursive (.dir entries) dest fs).files (dest ++ q) =
        match treeFileAt (FTree.dir entries) q with
        | some c => some c
        | none => fs.files (dest ++ q) := by
    intro entries dest fs ih q
    rw [copyRecursive, ih q]
    have hfiles : ∀ r, (if fs.pathExists dest = true then fs else fs.mkdirp dest).files r =
        fs.files r := by
      intro r
      by_cases h : fs.pathExists dest = true <;> simp [h, files_mkdirp]
    cases q with
    | nil => simp [treeFileAt, entriesFileAtPath, hfiles]
    | cons n q2 => rw [treeFileAt, entriesFileAtPath, hfiles]
  have h3 : ∀ (dest : FPath) (fs : FS), ∀ q,
      (copyEntries [] dest fs).files (dest ++ q) =
        match entriesFileAtPath ([] : List (String × FTree)) q with
        | some c => some c
        | none => fs.files (dest ++ q) := by
    intro dest fs q
    cases q with
    | nil => rfl
    | cons n q2 => simp [copyEntries, entriesFileAtPath, entriesFileAt]
  have h4 : ∀ (n : String) (t : FTree) (rest : List (String × FTree)) (dest : FPath) (fs : FS),
      (∀ q, (copyRecursive t (dest ++ [n]) fs).files ((dest ++ [n]) ++ q) =
        match treeFileAt t q with
        | some c => some c
        | none => fs.files ((dest ++ [n]) ++ q)) →
      (∀ q, (copyEntries rest dest (copyRecursive t (dest ++ [n]) fs)).files (dest ++ q) =
        match entriesFileAtPath rest q with
        | some c => some c
        | none => (copyRecursive t (dest ++ [n]) fs).files (dest ++ q)) →
      ∀ q, (copyEntries ((n, t) :: rest) dest fs).files (dest ++ q) =
        match entriesFileAtPath ((n, t) :: rest) q with
        | some c => some c
        | none => fs.files (dest ++ q) := by
    intro n t rest dest fs ih1 ih2 q
    rw [copyEntries, ih2 q]
    cases q with
    | nil =>
        simp only [entriesFileAtPath]
        rw [copy_files_frame t (dest ++ [n]) fs (dest ++ [])
          (by simpa using psw_self_append_cons dest n [])]
    | cons m q2 =>
        rw [entriesFileAtPath, entriesFileAtPath, entriesFileAt]
        cases hrest : entriesFileAt rest m q2 with
        | some c => simp
        | none =>
            simp only
            by_cases hm : m = n
            · subst hm
              have hassoc : dest ++ m :: q2 = (dest ++ [m]) ++ q2 := by simp
              rw [if_pos rfl, hassoc, ih1 q2]
            · have hpsw : pathStartsWith (dest ++ m :: q2) (dest ++ [n]) = false := by
                rw [show dest ++ m :: q2 = dest ++ (m :: q2) from rfl, psw_append_both]
                simp [psw_cons, hm]
              rw [if_neg hm, copy_files_frame t (dest ++ [n]) fs _ hpsw]
  exact ⟨fun t dest fs =>
      copyRecursive.induct
        (fun t dest fs => ∀ q, (copyRecursive t dest fs).files (dest ++ q) =
          match treeFileAt t q with
          | some c => some c
          | none => fs.files (dest ++ q))
        (fun l dest fs => ∀ q, (copyEntries l dest fs).files (dest ++ q) =
          match entriesFileAtPath l q with
          | some c => some c
          | none => fs.files (dest ++ q))
        h1 h2 h3 h4 t dest fs,
    fun l dest fs =>
      copyEntries.induct
        (fun t dest fs => ∀ q, (copyRecursive t dest fs).files (dest ++ q) =
          match treeFileAt t q with
          | some c => some c
          | none => fs.files (dest ++ q))
        (fun l dest fs => ∀ q, (copyEntries l dest fs).files (dest ++ q) =
          match entriesFileAtPath l q with
          | some c => some c
          | none => fs.files (dest ++ q))
        h1 h2 h3 h4 l dest fs⟩

theorem copy_files_under (t : FTree) (dest : FPath) (fs : FS) (q : FPath) :
    (copyRecursive t dest fs).files (dest ++ q) =
      match treeFileAt t q with
      | some c => some c
      | none => fs.files (dest ++ q) :=
  copy_files_under_all.1 t dest fs q

theorem treeReaches_nil (t : FTree) : treeReaches t [] = true := by
  cases t <;> simp [treeReaches]

theorem copy_dirs_under_all :
    (∀ (t : FTree) (dest : FPath) (fs : FS) (q : FPath),
      (copyRecursive t dest fs).dirs (dest ++ q) = true →
      fs.dirs (dest ++ q) = true ∨ treeReaches t q = true) ∧
    (∀ (l : List (String × FTree)) (dest : FPath) (fs : FS) (q : FPath),
      (copyEntries l dest fs).dirs (dest ++ q) = true →
      fs.dirs (dest ++ q) = true ∨ entriesReachesPath l q = true) := by
  have h1 : ∀ (c : String) (dest : FPath) (fs : FS), ∀ q,
      (copyRecursive (.file c) dest fs).dirs (dest ++ q) = true →
      fs.dirs (dest ++ q) = true ∨ treeReaches (FTree.file c) q = true := by
    intro c dest fs q h
    exact Or.inl h
  have h2 : ∀ (entries : List (String × FTree)) (dest : FPath) (fs : FS),
      (∀ q, (copyEntries entries dest (if fs.pathExists dest = true then fs else fs.mkdirp dest)).dirs (dest ++ q) = true →
        (if fs.pathExists dest = true then fs else fs.mkdirp dest).dirs (dest ++ q) = true ∨
        entriesReachesPath entries q = true) →
      ∀ q, (copyRecursive (.dir entries) dest fs).dirs (dest ++ q) = true →
      fs.dirs (dest ++ q) = true ∨ treeReaches (FTree.dir entries) q = true := by
    intro entries dest fs ih q h
    rw [copyRecursive] at h
    rcases ih q h with h0 | h0
    · by_cases hx : fs.pathExists dest = true
      · rw [if_pos hx] at h0
        exact Or.inl h0
      · rw [if_neg hx] at h0
        rw [dirs_mkdirp] at h0
        by_cases hps : pathStartsWith dest (dest ++ q) = true
        · have hlen := psw_length hps
          simp only [List.length_append] at hlen
          have hq : q = [] := by
            cases q with
            | nil => rfl
            | cons a b => simp at hlen
          subst hq
          exact Or.inr rfl
        · rw [if_neg (by simpa using hps)] at h0
          exact Or.inl h0
    · cases q with
      | nil => exact Or.inr rfl
      | cons n q2 => exact Or.inr h0
  have h3 : ∀ (dest : FPath) (fs : FS), ∀ q,
      (copyEntries [] dest fs).dirs (dest ++ q) = true →
      fs.dirs (dest ++ q) = true ∨
        entriesReachesPath ([] : List (String × FTree)) q = true := by
    intro dest fs q h
    exact Or.inl h
  have h4 : ∀ (n : String) (t : FTree) (rest : List (String × FTree)) (dest : FPath) (fs : FS),
      (∀ q, (copyRecursive t (dest ++ [n]) fs).dirs ((dest ++ [n]) ++ q) = true →
        fs.dirs ((dest ++ [n]) ++ q) = true ∨ treeReaches t q = true) →
      (∀ q, (copyEntries rest dest (copyRecursive t (dest ++ [n]) fs)).dirs (dest ++ q) = true →
        (copyRecursive t (dest ++ [n]) fs).dirs (dest ++ q) = true ∨
        entriesReachesPath rest q = true) →
      ∀ q, (copyEntries ((n, t) :: rest) dest fs).dirs (dest ++ q) = true →
      fs.dirs (dest ++ q) = true ∨ entriesReachesPath ((n, t) :: rest) q = true := by
    intro n t rest dest fs ih1 ih2 q h
    rw [copyEntries] at h
    have hreach : ∀ q2, treeReaches t q2 = true →
        entriesReachesPath ((n, t) :: rest) (n :: q2) = true := by
      intro q2 hr
      rw [entriesReachesPath, entriesReaches]
      simp [hr]
    rcases ih2 q h with h0 | h0
    · by_cases hc1 : pathStartsWith (dest ++ q) (dest ++ [n]) = true
      · rw [psw_append_both] at hc1
        obtain ⟨q2, hq2⟩ := psw_head hc1
        subst hq2
        have hassoc : dest ++ n :: q2 = (dest ++ [n]) ++ q2 := by simp
        rw [hassoc] at h0
        rcases ih1 q2 h0 with h1 | h1
        · rw [← hassoc] at h1
          exact Or.inl h1
        · exact Or.inr (hreach q2 h1)
      · by_cases hc2 : pathStartsWith (dest ++ [n]) (dest ++ q) = true
        · rw [psw_append_both] at hc2
          by_cases hq : q = []
          · subst hq
            exact Or.inr rfl
          · have : q = [n] := by
              cases q with
              | nil => exact absurd rfl hq
              | cons a q3 =>
                  rw [psw_cons, Bool.and_eq_true, beq_iff_eq] at hc2
                  have h3 := psw_nil_left (psw_nil_left hc2.2 ▸ hc2.2)
                  cases q3 with
                  | nil => rw [hc2.1]
                  | cons b q4 => simp [psw_nil_cons] at hc2
            subst this
            exact Or.inr (hreach [] (treeReaches_nil t))
        · rw [copy_dirs_frame t (dest ++ [n]) fs (dest ++ q)
            (by simpa using hc1) (by simpa using hc2)] at h0
          exact Or.inl h0
    · cases q with
      | nil => exact Or.inr rfl
      | cons m q2 =>
          rw [entriesReachesPath] at h0 ⊢
          rw [entriesReaches, h0]
          simp
  exact ⟨fun t dest fs =>
      copyRecursive.induct
        (fun t dest fs => ∀ q, (copyRecursive t dest fs).dirs (dest ++ q) = true →
          fs.dirs (dest ++ q) = true ∨ treeReaches t q = true)
        (fun l dest fs => ∀ q, (copyEntries l dest fs).dirs (dest ++ q) = true →
          fs.dirs (dest ++ q) = true ∨ entriesReachesPath l q = true)
        h1 h2 h3 h4 t dest fs,
    fun l dest fs =>
      copyEntries.induct
        (fun t dest fs => ∀ q, (copyRecursive t dest fs).dirs (dest ++ q) = true →
          fs.dirs (dest ++ q) = true ∨ treeReaches t q = true)
        (fun l dest fs => ∀ q, (copyEntries l dest fs).dirs (dest ++ q) = true →
          fs.dirs (dest ++ q) = true ∨ entriesReachesPath l q = true)
        h1 h2 h3 h4 l dest fs⟩

theorem copy_dirs_under (t : FTree) (dest : FPath) (fs : FS) (q : FPath)
    (h : (copyRecursive t dest fs).dirs (dest ++ q) = true) :
    fs.dirs (dest ++ q) = true ∨ treeReaches t q = true :=
  copy_dirs_under_all.1 t dest fs q h

/-- Copying never erases a file, never unsets a directory flag. -/
theorem copy_mono_all :
    (∀ (t : FTree) (dest : FPath) (fs : FS) (p : FPath),
      (fs.files p ≠ none → (copyRecursive t dest fs).files p ≠ none) ∧
      (fs.dirs p = true → (copyRecursive t dest fs).dirs p = true)) ∧
    (∀ (l : List (String × FTree)) (dest : FPath) (fs : FS) (p : FPath),
      (fs.files p ≠ none → (copyEntries l dest fs).files p ≠ none) ∧
      (fs.dirs p = true → (copyEntries l dest fs).dirs p = true)) := by
  have h1 : ∀ (c : String) (dest : FPath) (fs : FS), ∀ p,
      (fs.files p ≠ none → (copyRecursive (.file c) dest fs).files p ≠ none) ∧
      (fs.dirs p = true → (copyRecursive (.file c) dest fs).dirs p = true) := by
    intro c dest fs p
    constructor
    · intro h
      rw [copyRecursive, files_writeFile]
      by_cases he : p = dest <;> simp [he, h]
    · intro h
      rw [copyRecursive, dirs_writeFile]
      exact h
  have h2 : ∀ (entries : List (String × FTree)) (dest : FPath) (fs : FS),
      (∀ p, ((if fs.pathExists dest = true then fs else fs.mkdirp dest).files p ≠ none →
        (copyEntries entries dest (if fs.pathExists dest = true then fs else fs.mkdirp dest)).files p ≠ none) ∧
        ((if fs.pathExists dest = true then fs else fs.mkdirp dest).dirs p = true →
        (copyEntries entries dest (if fs.pathExists dest = true then fs else fs.mkdirp dest)).dirs p = true)) →
      ∀ p, (fs.files p ≠ none → (copyRecursive (.dir entries) dest fs).files p ≠ none) ∧
      (fs.dirs p = true → (copyRecursive (.dir entries) dest fs).dirs p = true) := by
    intro entries dest fs ih p
    rw [copyRecursive]
    constructor
    · intro h
      refine (ih p).1 ?_
      by_cases hx : fs.pathExists dest = true <;> simp [hx, files_mkdirp, h]
    · intro h
      refine (ih p).2 ?_
      by_cases hx : fs.pathExists dest = true
      · simpa [hx] using h
      · rw [if_neg hx, dirs_mkdirp]
        by_cases hps : pathStartsWith dest p = true <;> simp [hps, h]
  have h3 : ∀ (dest : FPath) (fs : FS), ∀ p,
      (fs.files p ≠ none → (copyEntries [] dest fs).files p ≠ none) ∧
      (fs.dirs p = true → (copyEntries [] dest fs).dirs p = true) := by
    intro dest fs p
    exact ⟨fun h => h, fun h => h⟩
  have h4 : ∀ (n : String) (t : FTree) (rest : List (String × FTree)) (dest : FPath) (fs : FS),
      (∀ p, (fs.files p ≠ none → (copyRecursive t (dest ++ [n]) fs).files p ≠ none) ∧
        (fs.dirs p = true → (copyRecursive t (dest ++ [n]) fs).dirs p = true)) →
      (∀ p, ((copyRecursive t (dest ++ [n]) fs).files p ≠ none →
        (copyEntries rest dest (copyRecursive t (dest ++ [n]) fs)).files p ≠ none) ∧
        ((copyRecursive t (dest ++ [n]) fs).dirs p = true →
        (copyEntries rest dest (copyRecursive t (dest ++ [n]) fs)).dirs p = true)) →
      ∀ p, (fs.files p ≠ none → (copyEntries ((n, t) :: rest) dest fs).files p ≠ none) ∧
      (fs.dirs p = true → (copyEntries ((n, t) :: rest) dest fs).dirs p = true) := by
    intro n t rest dest fs ih1 ih2 p
    rw [copyEntries]
    exact ⟨fun h => (ih2 p).1 ((ih1 p).1 h), fun h => (ih2 p).2 ((ih1 p).2 h)⟩
  exact ⟨fun t dest fs =>
      copyRecursive.induct
        (fun t dest fs => ∀ p,
          (fs.files p ≠ none → (copyRecursive t dest fs).files p ≠ none) ∧
          (fs.dirs p = true → (copyRecursive t dest fs).dirs p = true))
        (fun l dest fs => ∀ p,
          (fs.files p ≠ none → (copyEntries l dest fs).files p ≠ none) ∧
          (fs.dirs p = true → (copyEntries l dest fs).dirs p = true))
        h1 h2 h3 h4 t dest fs,
    fun l dest fs =>
      copyEntries.induct
        (fun t dest fs => ∀ p,
          (fs.files p ≠ none → (copyRecursive t dest fs).files p ≠ none) ∧
          (fs.dirs p = true → (copyRecursive t dest fs).dirs p = true))
        (fun l dest fs => ∀ p,
          (fs.files p ≠ none → (copyEntries l dest fs).files p ≠ none) ∧
          (fs.dirs p = true → (copyEntries l dest fs).dirs p = true))
        h1 h2 h3 h4 l dest fs⟩

theorem copy_pathExists_mono (t : FTree) (dest : FPath) (fs : FS) (p : FPath)
    (h : fs.pathExists p = true) : (copyRecursive t dest fs).pathExists p = true := by
  unfold FS.pathExists at h ⊢
  rw [Bool.or_eq_true] at h ⊢
  rcases h with h | h
  · left
    have hne : fs.files p ≠ none := by
      intro hn
      rw [hn] at h
      exact absurd h (by simp)
    have := (copy_mono_all.1 t dest fs p).1 hne
    cases hc : (copyRecursive t dest fs).files p with
    | none => exact absurd hc this
    | some c => rfl
  · right
    exact (copy_mono_all.1 t dest fs p).2 h

theorem copyEntries_pathExists_mono (l : List (String × FTree)) (dest : FPath) (fs : FS)
    (p : FPath) (h : fs.pathExists p = true) : (copyEntries l dest fs).pathExists p = true := by
  unfold FS.pathExists at h ⊢
  rw [Bool.or_eq_true] at h ⊢
  rcases h with h | h
  · left
    have hne : fs.files p ≠ none := by
      intro hn
      rw [hn] at h
      exact absurd h (by simp)
    have := (copy_mono_all.2 l dest fs p).1 hne
    cases hc : (copyEntries l dest fs).files p with
    | none => exact absurd hc this
    | some c => rfl
  · right
    exact (copy_mono_all.2 l dest fs p).2 h

/-- After copying a tree to `dest`, `dest` exists. -/
theorem copy_exists_dest (t : FTree) (dest : FPath) (fs : FS) :
    (copyRecursive t dest fs).pathExists dest = true := by
  cases t with
  | file c =>
      rw [copyRecursive]
      unfold FS.pathExists
      rw [files_writeFile]
      simp
  | dir entries =>
      rw [copyRecursive]
      refine copyEntries_pathExists_mono entries dest _ dest ?_
      by_cases hx : fs.pathExists dest = true
      · rw [if_pos hx]
        exact hx
      · rw [if_neg hx]
        unfold FS.pathExists
        rw [dirs_mkdirp, if_pos (psw_refl dest)]
        simp

theorem copy_files_under_some (t : FTree) (dest : FPath) (fs : FS) (q : FPath) (c : String)
    (h : treeFileAt t q = some c) :
    (copyRecursive t dest fs).files (dest ++ q) = some c := by
  rw [copy_files_under, h]

theorem copy_files_frame_cross (t : FTree) (root : FPath) (g g2 : String) (q : FPath)
    (fs : FS) (h : g ≠ g2) :
    (copyRecursive t (root ++ [g2]) fs).files ((root ++ [g]) ++ q) =
      fs.files ((root ++ [g]) ++ q) := by
  apply copy_files_frame
  rw [show (root ++ [g]) ++ q = root ++ (g :: q) by simp, psw_append_both, psw_cons]
  simp [h]

/-! ## Claim C4: copy merges and never deletes -/

/-- C4: `copyRecursive` never deletes: every pre-existing file keeps some
content; a destination file whose relative path does not occur as a node of
the source tree keeps exactly its old content, below `dest` as well as
outside `dest`'s subtree. -/
theorem C4_copy_is_merge (t : FTree) (dest : FPath) (fs : FS) :
    (∀ p, fs.files p ≠ none → (copyRecursive t dest fs).files p ≠ none) ∧
    (∀ q, treeReaches t q = false →
      (copyRecursive t dest fs).files (dest ++ q) = fs.files (dest ++ q)) ∧
    (∀ p, pathStartsWith p dest = false →
      (copyRecursive t dest fs).files p = fs.files p) := by
  refine ⟨fun p h => (copy_mono_all.1 t dest fs p).1 h, ?_,
    fun p h => copy_files_frame t dest fs p h⟩
  intro q hq
  have hnone : treeFileAt t q = none := by
    by_cases h : treeFileAt t q = none
    · exact h
    · exact absurd (treeFileAt_reaches t q h) (by simp [hq])
  rw [copy_files_under t dest fs q, hnone]

/-- Witness for C4: copying a source with only `a.md` over `fsWitness`
leaves the unrelated pre-existing `mine.md` byte-for-byte untouched. -/
theorem C4_copy_is_merge_witness :
    (copyRecursive (.dir [("a.md", .file "x")]) ["r", "commands"] fsWitness).files
        (["r", "commands"] ++ ["mine.md"]) =
      fsWitness.files (["r", "commands"] ++ ["mine.md"]) :=
  (C4_copy_is_merge (.dir [("a.md", .file "x")]) ["r", "commands"] fsWitness).2.1
    ["mine.md"] (by decide)

/-! ## Claim C9: install copies the whole source tree, manifest ignored -/

/-- C9: during an auto-confirmed install, every file found in an available
group's source tree ends up at the corresponding destination path with the
source content — with no assumption that the file is named in
`INSTALLED_ITEMS`; the copy loop is driven by the source tree alone. -/
theorem C9_install_copies_every_source_file (src : List (String × FTree)) (root : FPath)
    (fs : FS) (g : String) (t : FTree) (q : FPath) (c : String)
    (hg : g ∈ CUSTOMIZATION_DIRS) (hlook : lookupEntry src g = some t)
    (hfile : treeFileAt t q = some c) :
    (installFlow src true "" root fs).fs.files (root ++ [g] ++ q) = some c := by
  have hsome : (lookupEntry src g).isSome = true := by rw [hlook]; rfl
  have hmem : g ∈ availableDirs src := List.mem_filter.mpr ⟨hg, hsome⟩
  have hav : (availableDirs src).isEmpty = false :=
    List.isEmpty_eq_false.mpr (List.ne_nil_of_mem hmem)
  have hnp : installPrompted src true root fs = false := by
    unfold installPrompted
    simp
  have hflow : (installFlow src true "" root fs).fs = installCopy src root fs := by
    unfold installFlow
    rw [hav]
    simp [hnp]
  rw [hflow]
  unfold installCopy
  have hg2 : g = "commands" ∨ g = "skills" := by
    simpa [CUSTOMIZATION_DIRS] using hg
  rcases hg2 with hg2 | hg2
  · subst hg2
    by_cases hs : (lookupEntry src "skills").isSome = true
    · obtain ⟨ts, hts⟩ := Option.isSome_iff_exists.mp hs
      have hval : availableDirs src = ["commands", "skills"] := by
        simp [availableDirs, CUSTOMIZATION_DIRS, List.filter, hsome, hs]
      rw [hval]
      simp only [List.foldl, hlook, hts]
      rw [copy_files_frame_cross ts root "commands" "skills" q _ (by decide)]
      exact copy_files_under_some t (root ++ ["commands"]) _ q c hfile
    · have hs' : (lookupEntry src "skills").isSome = false := by simpa using hs
      have hval : availableDirs src = ["commands"] := by
        simp [availableDirs, CUSTOMIZATION_DIRS, List.filter, hsome, hs']
      rw [hval]
      simp only [List.foldl, hlook]
      exact copy_files_under_some t (root ++ ["commands"]) _ q c hfile
  · subst hg2
    by_cases hc2 : (lookupEntry src "commands").isSome = true
    · obtain ⟨tc, htc⟩ := Option.isSome_iff_exists.mp hc2
      have hval : availableDirs src = ["commands", "skills"] := by
        simp [availableDirs, CUSTOMIZATION_DIRS, List.filter, hc2, hsome]
      rw [hval]
      simp only [List.foldl, hlook, htc]
      exact copy_files_under_some t (root ++ ["skills"]) _ q c hfile
    · have hc2' : (lookupEntry src "commands").isSome = false := by simpa using hc2
      have hval : availableDirs src = ["skills"] := by
        simp [availableDirs, CUSTOMIZATION_DIRS, List.filter, hc2', hsome]
      rw [hval]
      simp only [List.foldl, hlook]
      exact copy_files_under_some t (root ++ ["skills"]) _ q c hfile

/-- Witness for C9: the file `commands/not-in-manifest.md`, absent from
`INSTALLED_ITEMS`, is copied to the destination all the same. -/
theorem C9_install_copies_every_source_file_witness :
    (installFlow [("commands", .dir [("not-in-manifest.md", .file "B")])] true "" ["r"]
        ⟨fun _ => none, fun _ => false⟩).fs.files
      (["r"] ++ ["commands"] ++ ["not-in-manifest.md"]) = some "B" :=
  C9_install_copies_every_source_file
    [("commands", .dir [("not-in-manifest.md", .file "B")])] ["r"]
    ⟨fun _ => none, fun _ => false⟩ "commands" (.dir [("not-in-manifest.md", .file "B")])
    ["not-in-manifest.md"] "B" (by decide) rfl (by decide)

/-! ## Clean removal of a whole scanned list -/

theorem psw_exists_suffix : ∀ {p t : FPath}, pathStartsWith p t = true → ∃ q, p = t ++ q := by
  intro p t
  induction t generalizing p with
  | nil => intro _; exact ⟨p, rfl⟩
  | cons b t ih =>
      intro h
      cases p with
      | nil => simp [psw_nil_cons] at h
      | cons a p =>
          rw [psw_cons, Bool.and_eq_true, beq_iff_eq] at h
          obtain ⟨q, hq⟩ := ih h.2
          exact ⟨q, by rw [h.1, hq]; rfl⟩

theorem append_pair_inj : ∀ (d : FPath) (a b c e : String),
    d ++ [a, b] = d ++ [c, e] → a = c ∧ b = e := by
  intro d a b c e h
  induction d with
  | nil =>
      simp only [List.nil_append, List.cons.injEq, and_true] at h
      exact h
  | cons x d ih =>
      simp only [List.cons_append, List.cons.injEq, true_and] at h
      exact ih h

/-- A target is removable when, if its directory flag is off, nothing lives
strictly below it: then `removeRecursive` clears its whole subtree. -/
def removable (fs : FS) (t : FPath) : Prop :=
  fs.dirs t = false →
    ∀ p, pathStartsWith p t = true → p ≠ t → fs.files p = none ∧ fs.dirs p = false

theorem rr_clean (fs : FS) (t : FPath) (hrem : removable fs t) :
    ∀ p, pathStartsWith p t = true →
      (removeRecursive fs t).2.files p = none ∧ (removeRecursive fs t).2.dirs p = false := by
  intro p hp
  unfold removeRecursive
  by_cases h1 : fs.pathExists t = false
  · rw [if_pos h1]
    have hd : fs.dirs t = false := by
      unfold FS.pathExists at h1
      rcases Bool.or_eq_false_iff.mp h1 with ⟨_, h⟩
      exact h
    by_cases hpt : p = t
    · subst hpt
      refine ⟨?_, hd⟩
      unfold FS.pathExists at h1
      rcases Bool.or_eq_false_iff.mp h1 with ⟨h, _⟩
      cases hc : fs.files p with
      | none => rfl
      | some c => rw [hc] at h; exact absurd h (by simp)
    · exact hrem hd p hp hpt
  · rw [if_neg h1]
    by_cases h2 : fs.dirs t = true
    · rw [if_pos h2]
      simp [files_removeTree, dirs_removeTree, hp]
    · rw [if_neg h2]
      have hd : fs.dirs t = false := by simpa using h2
      by_cases hpt : p = t
      · subst hpt
        simp [files_unlink, dirs_unlink, hd]
      · have := hrem hd p hp hpt
        simp [files_unlink, dirs_unlink, hpt, this.1, this.2]

theorem rr_result_frame (fs : FS) (t : FPath) (p : FPath)
    (hp : pathStartsWith p t = false) :
    (removeRecursive fs t).2.files p = fs.files p ∧
    (removeRecursive fs t).2.dirs p = fs.dirs p :=
  rr_frame fs t p hp

/-- Removing a list of pairwise-distinct same-shape targets, each removable
at the start, clears every target's subtree. -/
theorem runRemovals_clean (root : FPath) :
    ∀ (L : List (String × String)) (a : Nat × FS),
      L.Nodup →
      (∀ gi ∈ L, removable a.2 (root ++ [gi.1, gi.2])) →
      ∀ gi ∈ L, ∀ p, pathStartsWith p (root ++ [gi.1, gi.2]) = true →
        (runRemovals root L a).2.files p = none ∧
        (runRemovals root L a).2.dirs p = false := by
  intro L
  induction L with
  | nil => intro a _ _ gi hgi; simp at hgi
  | cons g0 L ih =>
      intro a hnd hrem gi hgi p hp
      rw [runRemovals_cons]
      rw [List.nodup_cons] at hnd
      set t0 : FPath := root ++ [g0.1, g0.2] with ht0
      set fs1 := (removeRecursive a.2 t0).2 with hfs1
      set a1 : Nat × FS :=
        (a.1 + (if (removeRecursive a.2 t0).1 then 1 else 0), fs1) with ha1
      have hdisj : ∀ gj : String × String, gj ≠ g0 → ∀ p2 : FPath,
          pathStartsWith p2 (root ++ [gj.1, gj.2]) = true →
          pathStartsWith p2 t0 = false := by
        intro gj hne p2 h2
        by_cases hb : pathStartsWith p2 t0 = true
        · exfalso
          have hlen : (root ++ [gj.1, gj.2]).length = t0.length := by
            rw [ht0]
            simp
          have := psw_both_same_length h2 hb hlen
          obtain ⟨hg, hi⟩ := append_pair_inj root gj.1 gj.2 g0.1 g0.2 (by rw [← ht0, this])
          exact hne (Prod.ext hg hi)
        · simpa using hb
      have hremL : ∀ gj ∈ L, removable a1.2 (root ++ [gj.1, gj.2]) := by
        intro gj hgj
        have hne : gj ≠ g0 := fun he => hnd.1 (he ▸ hgj)
        have hfr := rr_result_frame a.2 t0 (root ++ [gj.1, gj.2])
          (hdisj gj hne _ (psw_refl _))
        intro hd p2 hp2 hne2
        have hfr2 := rr_result_frame a.2 t0 p2 (hdisj gj hne p2 hp2)
        have hb : a.2.dirs (root ++ [gj.1, gj.2]) = false := by
          rw [← hfr.2]
          exact hd
        have := hrem gj (List.mem_cons_of_mem _ hgj) hb p2 hp2 hne2
        rw [hfr2.1, hfr2.2]
        exact this
      rcases List.mem_cons.mp hgi with he | he
      · subst he
        have hstep := rr_clean a.2 t0 (hrem gi (List.mem_cons_self _ _)) p hp
        have hfr : ∀ gj ∈ L, pathStartsWith p (root ++ [gj.1, gj.2]) = false := by
          intro gj hgj
          by_cases hb : pathStartsWith p (root ++ [gj.1, gj.2]) = true
          · exfalso
            have hne : gj ≠ gi := fun he => hnd.1 (he ▸ hgj)
            have := hdisj gj hne p hb
            rw [this] at hp
            cases hp
          · simpa using hb
        have := runRemovals_frame root L a1 p hfr
        rw [this.1, this.2]
        exact hstep
      · exact ih a1 hnd.2 hremL gi he p hp

/-- The uninstall scan never lists a pair twice. -/
theorem uninstallScan_nodup (root : FPath) (fs : FS) : (uninstallScan root fs).Nodup := by
  unfold uninstallScan INSTALLED_ITEMS
  simp only [List.flatMap_cons, List.flatMap_nil, List.append_nil]
  apply List.Nodup.append
  · refine List.Nodup.map ?_ (List.Nodup.filter _ (by decide))
    intro a b h
    simpa using congrArg Prod.snd h
  · refine List.Nodup.map ?_ (List.Nodup.filter _ (by decide))
    intro a b h
    simpa using congrArg Prod.snd h
  · intro x hx hy
    rw [List.mem_map] at hx hy
    obtain ⟨i1, _, he1⟩ := hx
    obtain ⟨i2, _, he2⟩ := hy
    have h1 : x.1 = "commands" := by rw [← he1]
    have h2 : x.1 = "skills" := by rw [← he2]
    rw [h1] at h2
    exact absurd h2 (by decide)

theorem manifest_group {g : String} {items : List String}
    (h : (g, items) ∈ INSTALLED_ITEMS) : g = "commands" ∨ g = "skills" := by
  simp only [INSTALLED_ITEMS, List.mem_cons, List.mem_singleton, Prod.mk.injEq,
    List.not_mem_nil, or_false] at h
  rcases h with ⟨hg, _⟩ | ⟨hg, _⟩
  · exact Or.inl hg
  · exact Or.inr hg

/-! ## Per-entry behaviour of the copy loop -/

theorem psw_append_single_ne (dest : FPath) {a b : String} (h : a ≠ b) :
    pathStartsWith (dest ++ [a]) (dest ++ [b]) = false := by
  rw [psw_append_both, psw_cons]
  simp [h]

theorem psw_append_cons_ne (dest : FPath) {a b : String} (q : FPath) (h : a ≠ b) :
    pathStartsWith (dest ++ a :: q) (dest ++ [b]) = false := by
  rw [show dest ++ a :: q = dest ++ (a :: q) from rfl, psw_append_both, psw_cons]
  simp [h]

theorem psw_single_cons_ne (dest : FPath) {a b : String} (q : FPath) (h : b ≠ a) :
    pathStartsWith (dest ++ [b]) (dest ++ a :: q) = false := by
  rw [show dest ++ a :: q = dest ++ (a :: q) from rfl, psw_append_both, psw_cons]
  simp [h]

theorem copyEntries_frame_absent :
    ∀ (l : List (String × FTree)) (dest : FPath) (fs : FS) (n : String),
      n ∉ l.map Prod.fst → ∀ q : FPath,
        (copyEntries l dest fs).files (dest ++ n :: q) = fs.files (dest ++ n :: q) ∧
        (copyEntries l dest fs).dirs (dest ++ n :: q) = fs.dirs (dest ++ n :: q) := by
  intro l
  induction l with
  | nil => intro dest fs n _ q; exact ⟨rfl, rfl⟩
  | cons e rest ih =>
      intro dest fs n hn q
      obtain ⟨m, t⟩ := e
      simp only [List.map_cons, List.mem_cons] at hn
      push_neg at hn
      rw [copyEntries]
      have hstep_f : (copyRecursive t (dest ++ [m]) fs).files (dest ++ n :: q) =
          fs.files (dest ++ n :: q) :=
        copy_files_frame t (dest ++ [m]) fs _ (psw_append_cons_ne dest q hn.1)
      have hstep_d : (copyRecursive t (dest ++ [m]) fs).dirs (dest ++ n :: q) =
          fs.dirs (dest ++ n :: q) :=
        copy_dirs_frame t (dest ++ [m]) fs _ (psw_append_cons_ne dest q hn.1)
          (psw_single_cons_ne dest q (fun he => hn.1 he.symm))
      obtain ⟨hf, hd⟩ := ih dest (copyRecursive t (dest ++ [m]) fs) n hn.2 q
      exact ⟨hf.trans hstep_f, hd.trans hstep_d⟩

theorem copyEntries_entry_exists :
    ∀ (l : List (String × FTree)) (dest : FPath) (fs : FS) (n : String),
      n ∈ l.map Prod.fst → (copyEntries l dest fs).pathExists (dest ++ [n]) = true := by
  intro l
  induction l with
  | nil => intro dest fs n h; simp at h
  | cons e rest ih =>
      intro dest fs n h
      obtain ⟨m, t⟩ := e
      rw [copyEntries]
      by_cases hnm : n = m
      · subst hnm
        exact copyEntries_pathExists_mono rest dest _ _ (copy_exists_dest t (dest ++ [n]) fs)
      · apply ih
        simp only [List.map_cons, List.mem_cons] at h
        rcases h with h | h
        · exact absurd h hnm
        · exact h

theorem copyEntries_entry_dirs :
    ∀ (l : List (String × FTree)) (dest : FPath) (fs : FS),
      (l.map Prod.fst).Nodup →
      (∀ n0 ∈ l.map Prod.fst, fs.pathExists (dest ++ [n0]) = false) →
      ∀ (n : String) (t : FTree), (n, t) ∈ l →
        (∀ ents, t = .dir ents → (copyEntries l dest fs).dirs (dest ++ [n]) = true) ∧
        (∀ c, t = .file c →
          (copyEntries l dest fs).dirs (dest ++ [n]) = fs.dirs (dest ++ [n])) := by
  intro l
  induction l with
  | nil => intro dest fs _ _ n t h; simp at h
  | cons e rest ih =>
      intro dest fs hnd hpre n t hmem
      obtain ⟨m, tm⟩ := e
      simp only [List.map_cons, List.nodup_cons] at hnd
      rw [copyEntries]
      rcases List.mem_cons.mp hmem with he | he
      · obtain ⟨h1, h2⟩ : n = m ∧ t = tm := ⟨congrArg Prod.fst he, congrArg Prod.snd he⟩
        subst h1
        subst h2
        have habs := copyEntries_frame_absent rest dest (copyRecursive t (dest ++ [n]) fs) n
          hnd.1 []
        constructor
        · intro ents hte
          subst hte
          rw [habs.2]
          rw [copyRecursive]
          have hx : fs.pathExists (dest ++ [n]) = false :=
            hpre n (by simp)
          rw [if_neg (by simp [hx])]
          refine (copy_mono_all.2 ents (dest ++ [n]) _ (dest ++ [n])).2 ?_
          rw [dirs_mkdirp, if_pos (psw_refl _)]
        · intro c htc
          subst htc
          rw [habs.2, copyRecursive, dirs_writeFile]
      · have hnm : n ≠ m := by
          intro he2
          exact hnd.1 (he2 ▸ List.mem_map.mpr ⟨(n, t), he, rfl⟩)
        have hpre2 : ∀ n0 ∈ rest.map Prod.fst,
            (copyRecursive tm (dest ++ [m]) fs).pathExists (dest ++ [n0]) = false := by
          intro n0 h0
          have hn0m : n0 ≠ m := by
            intro he2
            exact hnd.1 (he2 ▸ h0)
          unfold FS.pathExists
          rw [copy_files_frame tm (dest ++ [m]) fs _ (psw_append_single_ne dest hn0m),
            copy_dirs_frame tm (dest ++ [m]) fs _ (psw_append_single_ne dest hn0m)
              (psw_append_single_ne dest (fun he2 => hn0m he2.symm))]
          exact hpre n0 (by simp only [List.map_cons, List.mem_cons]; exact Or.inr h0)
        have hres := ih dest (copyRecursive tm (dest ++ [m]) fs) hnd.2 hpre2 n t he
        constructor
        · intro ents hte
          exact hres.1 ents hte
        · intro c htc
          rw [hres.2 c htc]
          rw [copy_dirs_frame tm (dest ++ [m]) fs _ (psw_append_single_ne dest hnm)
            (psw_append_single_ne dest (fun he2 => hnm he2.symm))]

/-! ## Facts about copying one whole group -/

theorem psw_false_of_longer {p t : FPath} (h : p.length < t.length) :
    pathStartsWith p t = false := by
  by_cases hb : pathStartsWith p t = true
  · have := psw_length hb
    omega
  · simpa using hb

theorem mem_map_fst {l : List (String × FTree)} {n : String}
    (h : n ∈ l.map Prod.fst) : ∃ t, (n, t) ∈ l := by
  rw [List.mem_map] at h
  obtain ⟨e, he, hfst⟩ := h
  exact ⟨e.2, by rw [← hfst]; exact he⟩

/-- Copying a directory tree into an empty region: the entry paths exist
afterwards, nothing appears under names the tree does not have, every
entry's path is removable, and no file appears at the destination root
itself. -/
theorem groupCopyFacts (ents : List (String × FTree)) (dest : FPath) (fs_in : FS)
    (hnd : (ents.map Prod.fst).Nodup)
    (hemp : ∀ (x : String) (q : FPath),
      fs_in.files (dest ++ x :: q) = none ∧ fs_in.dirs (dest ++ x :: q) = false) :
    (∀ n, n ∈ ents.map Prod.fst →
      (copyRecursive (.dir ents) dest fs_in).pathExists (dest ++ [n]) = true) ∧
    (∀ (i : String) (q : FPath), i ∉ ents.map Prod.fst →
      (copyRecursive (.dir ents) dest fs_in).files (dest ++ i :: q) = none ∧
      (copyRecursive (.dir ents) dest fs_in).dirs (dest ++ i :: q) = false) ∧
    (∀ n, n ∈ ents.map Prod.fst →
      removable (copyRecursive (.dir ents) dest fs_in) (dest ++ [n])) ∧
    ((copyRecursive (.dir ents) dest fs_in).files dest = fs_in.files dest) := by
  have hunfold : copyRecursive (.dir ents) dest fs_in =
      copyEntries ents dest
        (if fs_in.pathExists dest = true then fs_in else fs_in.mkdirp dest) := by
    rw [copyRecursive]
  have hfs0f : ∀ p,
      (if fs_in.pathExists dest = true then fs_in else fs_in.mkdirp dest).files p =
        fs_in.files p := by
    intro p
    by_cases hx : fs_in.pathExists dest = true <;> simp [hx, files_mkdirp]
  have hfs0d : ∀ (x : String) (q : FPath),
      (if fs_in.pathExists dest = true then fs_in else fs_in.mkdirp dest).dirs
        (dest ++ x :: q) = false := by
    intro x q
    by_cases hx : fs_in.pathExists dest = true
    · rw [if_pos hx]
      exact (hemp x q).2
    · rw [if_neg hx, dirs_mkdirp, if_neg (by simp [psw_self_append_cons])]
      exact (hemp x q).2
  have hpre : ∀ n0 ∈ ents.map Prod.fst,
      (if fs_in.pathExists dest = true then fs_in else fs_in.mkdirp dest).pathExists
        (dest ++ [n0]) = false := by
    intro n0 _
    rw [FS.pathExists, hfs0f, (hemp n0 []).1, hfs0d n0 []]
    rfl
  refine ⟨?_, ?_, ?_, ?_⟩
  · intro n hn
    rw [hunfold]
    exact copyEntries_entry_exists ents dest _ n hn
  · intro i q hi
    constructor
    · have h0 : treeFileAt (.dir ents) (i :: q) = none := by
        rw [treeFileAt]
        exact entriesFileAt_not_mem ents i q hi
      rw [copy_files_under, h0]
      exact (hemp i q).1
    · by_cases hb : (copyRecursive (.dir ents) dest fs_in).dirs (dest ++ i :: q) = true
      · exfalso
        rcases copy_dirs_under _ dest fs_in (i :: q) hb with h | h
        · rw [(hemp i q).2] at h
          cases h
        · rw [treeReaches] at h
          exact hi (entriesReaches_mem h)
      · simpa using hb
  · intro n hn
    obtain ⟨t, hmem⟩ := mem_map_fst hn
    cases t with
    | dir ents2 =>
        have hdirs : (copyRecursive (.dir ents) dest fs_in).dirs (dest ++ [n]) = true := by
          rw [hunfold]
          exact (copyEntries_entry_dirs ents dest _ hnd hpre n (.dir ents2) hmem).1 ents2 rfl
        intro hd
        rw [hdirs] at hd
        exact absurd hd (by simp)
    | file c =>
        intro _ p hp hne
        obtain ⟨q2, hq2⟩ := psw_exists_suffix hp
        have hq2ne : q2 ≠ [] := by
          intro he
          rw [he, List.append_nil] at hq2
          exact hne hq2
        obtain ⟨y, q3, hy⟩ : ∃ y q3, q2 = y :: q3 := by
          cases q2 with
          | nil => exact absurd rfl hq2ne
          | cons y q3 => exact ⟨y, q3, rfl⟩
        subst hy
        subst hq2
        have hpath : (dest ++ [n]) ++ y :: q3 = dest ++ n :: y :: q3 := by simp
        rw [hpath]
        constructor
        · have h0 : treeFileAt (.dir ents) (n :: y :: q3) = none := by
            rw [treeFileAt, entriesFileAt_nodup ents n (.file c) (y :: q3) hnd hmem,
              treeFileAt]
          rw [copy_files_under, h0]
          exact (hemp n (y :: q3)).1
        · by_cases hb : (copyRecursive (.dir ents) dest fs_in).dirs
              (dest ++ n :: y :: q3) = true
          · exfalso
            rcases copy_dirs_under _ dest fs_in (n :: y :: q3) hb with h | h
            · rw [(hemp n (y :: q3)).2] at h
              cases h
            · rw [treeReaches,
                entriesReaches_nodup ents n (.file c) (y :: q3) hnd hmem,
                treeReaches] at h
              cases h
          · simpa using hb
  · have h := copy_files_under (.dir ents) dest fs_in []
    rw [List.append_nil] at h
    rw [h, treeFileAt]

/-- A copy aimed at a sibling directory of the same depth leaves a whole
subtree untouched. -/
theorem copy_subtree_frame (t2 : FTree) (dest dest2 : FPath) (fsx : FS)
    (hlen : dest.length = dest2.length) (hne : dest ≠ dest2) :
    ∀ p, pathStartsWith p dest = true →
      (copyRecursive t2 dest2 fsx).files p = fsx.files p ∧
      (copyRecursive t2 dest2 fsx).dirs p = fsx.dirs p := by
  intro p hp
  have h1 : pathStartsWith p dest2 = false := by
    by_cases hb : pathStartsWith p dest2 = true
    · exact absurd (psw_both_same_length hp hb hlen) hne
    · simpa using hb
  have h2 : pathStartsWith dest2 p = false := by
    by_cases hb : pathStartsWith dest2 p = true
    · exfalso
      have hl1 := psw_length hp
      have hl2 := psw_length hb
      have hpd : p = dest := psw_eq_of_length hp (by omega)
      have hdp : dest2 = p := psw_eq_of_length hb (by omega)
      exact hne (by rw [← hpd, ← hdp])
    · simpa using hb
  exact ⟨copy_files_frame _ _ _ _ h1, copy_dirs_frame _ _ _ _ h1 h2⟩

/-- Removability only depends on the subtree of the target. -/
theorem removable_of_agree {fs1 fs2 : FS} {t : FPath}
    (hag : ∀ p, pathStartsWith p t = true →
      fs2.files p = fs1.files p ∧ fs2.dirs p = fs1.dirs p)
    (h : removable fs1 t) : removable fs2 t := by
  intro hd p hp hne
  have ht := hag t (psw_refl t)
  have hp2 := hag p hp
  rw [hp2.1, hp2.2]
  exact h (by rw [← ht.2]; exact hd) p hp hne

/-! ## Claim C1: the install/uninstall round trip -/

/-- The round-trip property exactly as the spec states it: after install
followed by uninstall the destination holds the same files everywhere and
the same directories everywhere except possibly the root itself. -/
def sameExceptRoot (root : FPath) (fs2 fs1 : FS) : Prop :=
  (∀ p, fs2.files p = fs1.files p) ∧ (∀ p, p ≠ root → fs2.dirs p = fs1.dirs p)

/-- A source tree holding both configured groups, with one file
(`commands/extra.md`) that the manifest does not list. -/
def srcC1 : List (String × FTree) :=
  [("commands", .dir [("davenov:cc:interview.md", .file "A"), ("extra.md", .file "B")]),
   ("skills", .dir [("davenov:cc:expert-nextjs-16", .dir [("SKILL.md", .file "S")])])]

/-- A destination state with one operator file sitting inside a
manifest-listed skill directory, and no directories at all. -/
def fsC1 : FS :=
  ⟨fun q => if q = ["home", ".claude", "skills", "davenov:cc:expert-nextjs-16", "opnote.md"]
      then some "op" else none,
   fun _ => false⟩

/-- Counterexample to C1 as stated: running install then uninstall (both
auto-confirmed) over `fsC1` does not restore the previous state modulo the
root directory — the `commands` group directory remains behind (likewise
`skills`, the root's ancestor `home`, and the non-manifest source file
`commands/extra.md` survives while the operator's file inside the manifest
skill directory is destroyed). -/
theorem C1_counterexample :
    ¬ sameExceptRoot ["home", ".claude"]
      (roundTrip srcC1 ["home", ".claude"] fsC1) fsC1 := by
  intro h
  have h2 := h.2 ["home", ".claude", "commands"] (by decide)
  revert h2
  decide

theorem append_single_inj : ∀ (d : FPath) (a b : String), d ++ [a] = d ++ [b] → a = b := by
  intro d a b h
  induction d with
  | nil => simpa using h
  | cons x d ih =>
      simp only [List.cons_append, List.cons.injEq, true_and] at h
      exact ih h

theorem psw_group_cross (root : FPath) {a b : String} (h : a ≠ b) (x : String) (q : FPath) :
    pathStartsWith ((root ++ [a]) ++ x :: q) (root ++ [b]) = false := by
  rw [List.append_assoc, List.singleton_append, psw_append_both, psw_cons]
  simp [h]

theorem psw_group_cross2 (root : FPath) {a b : String} (h : b ≠ a) (x : String) (q : FPath) :
    pathStartsWith (root ++ [b]) ((root ++ [a]) ++ x :: q) = false := by
  rw [List.append_assoc, List.singleton_append, psw_append_both, psw_cons]
  simp [h]

theorem psw_sibling (root : FPath) {a b : String} (h : a ≠ b) :
    pathStartsWith (root ++ [a]) (root ++ [b]) = false := by
  rw [psw_append_both, psw_cons]
  simp [h]

/-- The heart of the round-trip analysis: copying both groups into a
destination that holds nothing strictly inside the group directories, then
running the auto-confirmed uninstall, restores every file and every
directory except possibly the root's ancestors and the two group
directories — provided both groups' top-level entry names are
manifest-listed and duplicate-free. -/
theorem roundTripCore (root : FPath) (fs fs1 : FS)
    (entsC entsS : List (String × FTree))
    (hNC : (entsC.map Prod.fst).Nodup)
    (hNS : (entsS.map Prod.fst).Nodup)
    (hMC : ∀ n ∈ entsC.map Prod.fst, manifestMem "commands" n)
    (hMS : ∀ n ∈ entsS.map Prod.fst, manifestMem "skills" n)
    (hfs1f : ∀ p, fs1.files p = fs.files p)
    (hfs1d : ∀ p, pathStartsWith root p = false → fs1.dirs p = fs.dirs p)
    (hEC : ∀ (x : String) (q : FPath),
      fs.files ((root ++ ["commands"]) ++ x :: q) = none ∧
      fs.dirs ((root ++ ["commands"]) ++ x :: q) = false)
    (hES : ∀ (x : String) (q : FPath),
      fs.files ((root ++ ["skills"]) ++ x :: q) = none ∧
      fs.dirs ((root ++ ["skills"]) ++ x :: q) = false) :
    (∀ p,
      (uninstallFlow true "" root
        (copyRecursive (.dir entsS) (root ++ ["skills"])
          (copyRecursive (.dir entsC) (root ++ ["commands"]) fs1))).fs.files p =
      fs.files p) ∧
    (∀ p, pathStartsWith root p = false →
      p ≠ root ++ ["commands"] → p ≠ root ++ ["skills"] →
      (uninstallFlow true "" root
        (copyRecursive (.dir entsS) (root ++ ["skills"])
          (copyRecursive (.dir entsC) (root ++ ["commands"]) fs1))).fs.dirs p =
      fs.dirs p) := by
  have hlen : (root ++ ["commands"] : FPath).length = (root ++ ["skills"] : FPath).length := by
    simp
  have hneCS : (root ++ ["commands"] : FPath) ≠ root ++ ["skills"] := by
    intro h
    exact absurd (append_single_inj root _ _ h) (by decide)
  have hfs1_len : ∀ (g x : String) (q : FPath),
      pathStartsWith root ((root ++ [g]) ++ x :: q) = false := by
    intro g x q
    apply psw_false_of_longer
    simp only [List.length_append, List.length_cons, List.length_singleton]
    omega
  have hEC1 : ∀ (x : String) (q : FPath),
      fs1.files ((root ++ ["commands"]) ++ x :: q) = none ∧
      fs1.dirs ((root ++ ["commands"]) ++ x :: q) = false := by
    intro x q
    exact ⟨(hfs1f _).trans (hEC x q).1,
      (hfs1d _ (hfs1_len "commands" x q)).trans (hEC x q).2⟩
  obtain ⟨hG3C, hG4C, hG5C, hG6C⟩ :=
    groupCopyFacts entsC (root ++ ["commands"]) fs1 hNC hEC1
  have hESc : ∀ (x : String) (q : FPath),
      (copyRecursive (.dir entsC) (root ++ ["commands"]) fs1).files
        ((root ++ ["skills"]) ++ x :: q) = none ∧
      (copyRecursive (.dir entsC) (root ++ ["commands"]) fs1).dirs
        ((root ++ ["skills"]) ++ x :: q) = false := by
    intro x q
    have h1 : pathStartsWith ((root ++ ["skills"]) ++ x :: q) (root ++ ["commands"]) = false :=
      psw_group_cross root (by decide) x q
    have h2 : pathStartsWith (root ++ ["commands"]) ((root ++ ["skills"]) ++ x :: q) = false :=
      psw_group_cross2 root (by decide) x q
    constructor
    · rw [copy_files_frame _ _ _ _ h1, hfs1f]
      exact (hES x q).1
    · rw [copy_dirs_frame _ _ _ _ h1 h2, hfs1d _ (hfs1_len "skills" x q)]
      exact (hES x q).2
  obtain ⟨hG3S, hG4S, hG5S, hG6S⟩ :=
    groupCopyFacts entsS (root ++ ["skills"])
      (copyRecursive (.dir entsC) (root ++ ["commands"]) fs1) hNS hESc
  have hskip : ∀ p, pathStartsWith p (root ++ ["commands"]) = true →
      (copyRecursive (.dir entsS) (root ++ ["skills"])
        (copyRecursive (.dir entsC) (root ++ ["commands"]) fs1)).files p =
        (copyRecursive (.dir entsC) (root ++ ["commands"]) fs1).files p ∧
      (copyRecursive (.dir entsS) (root ++ ["skills"])
        (copyRecursive (.dir entsC) (root ++ ["commands"]) fs1)).dirs p =
        (copyRecursive (.dir entsC) (root ++ ["commands"]) fs1).dirs p :=
    copy_subtree_frame (.dir entsS) (root ++ ["commands"]) (root ++ ["skills"]) _ hlen hneCS
  have hG3C2 : ∀ n ∈ entsC.map Prod.fst,
      (copyRecursive (.dir entsS) (root ++ ["skills"])
        (copyRecursive (.dir entsC) (root ++ ["commands"]) fs1)).pathExists
        ((root ++ ["commands"]) ++ [n]) = true := by
    intro n hn
    have hsub := hskip ((root ++ ["commands"]) ++ [n]) (psw_append _ _)
    have h0 := hG3C n hn
    rw [FS.pathExists] at h0 ⊢
    rw [hsub.1, hsub.2]
    exact h0
  have hG4C2 : ∀ (i : String) (q : FPath), i ∉ entsC.map Prod.fst →
      (copyRecursive (.dir entsS) (root ++ ["skills"])
        (copyRecursive (.dir entsC) (root ++ ["commands"]) fs1)).files
        ((root ++ ["commands"]) ++ i :: q) = none ∧
      (copyRecursive (.dir entsS) (root ++ ["skills"])
        (copyRecursive (.dir entsC) (root ++ ["commands"]) fs1)).dirs
        ((root ++ ["commands"]) ++ i :: q) = false := by
    intro i q hi
    have hsub := hskip ((root ++ ["commands"]) ++ i :: q) (psw_append _ _)
    rw [hsub.1, hsub.2]
    exact hG4C i q hi
  have hremC2 : ∀ n ∈ entsC.map Prod.fst,
      removable
        (copyRecursive (.dir entsS) (root ++ ["skills"])
          (copyRecursive (.dir entsC) (root ++ ["commands"]) fs1))
        ((root ++ ["commands"]) ++ [n]) := by
    intro n hn
    refine removable_of_agree ?_ (hG5C n hn)
    intro p hp
    exact hskip p (psw_trans hp (psw_append _ _))
  -- abbreviate the installed filesystem in the remaining reasoning
  set FS2 : FS := copyRecursive (.dir entsS) (root ++ ["skills"])
    (copyRecursive (.dir entsC) (root ++ ["commands"]) fs1) with hFS2
  have hscan_elim : ∀ gi ∈ uninstallScan root FS2,
      (gi.1 = "commands" ∧ gi.2 ∈ entsC.map Prod.fst) ∨
      (gi.1 = "skills" ∧ gi.2 ∈ entsS.map Prod.fst) := by
    intro gi hgi
    rw [uninstallScan_mem] at hgi
    obtain ⟨items, hinst, hitem, hex⟩ := hgi
    rcases manifest_group hinst with hg | hg
    · refine Or.inl ⟨hg, ?_⟩
      by_cases hn : gi.2 ∈ entsC.map Prod.fst
      · exact hn
      · exfalso
        have h4 := hG4C2 gi.2 [] hn
        rw [hg] at hex
        have hpath : root ++ ["commands", gi.2] = (root ++ ["commands"]) ++ gi.2 :: [] := by
          simp
        rw [hpath, FS.pathExists, h4.1, h4.2] at hex
        exact absurd hex (by simp)
    · refine Or.inr ⟨hg, ?_⟩
      by_cases hn : gi.2 ∈ entsS.map Prod.fst
      · exact hn
      · exfalso
        have h4 := hG4S gi.2 [] hn
        rw [hg] at hex
        have hpath : root ++ ["skills", gi.2] = (root ++ ["skills"]) ++ gi.2 :: [] := by
          simp
        rw [hpath, FS.pathExists, h4.1, h4.2] at hex
        exact absurd hex (by simp)
  have hscan_introC : ∀ n ∈ entsC.map Prod.fst, ("commands", n) ∈ uninstallScan root FS2 := by
    intro n hn
    rw [uninstallScan_mem]
    refine ⟨manifestItems "commands",
      show ("commands", manifestItems "commands") ∈ INSTALLED_ITEMS by decide,
      hMC n hn, ?_⟩
    have hpath : root ++ ["commands", n] = (root ++ ["commands"]) ++ [n] := by simp
    rw [show (("commands", n) : String × String).1 = "commands" from rfl,
      show (("commands", n) : String × String).2 = n from rfl, hpath]
    exact hG3C2 n hn
  have hscan_introS : ∀ n ∈ entsS.map Prod.fst, ("skills", n) ∈ uninstallScan root FS2 := by
    intro n hn
    rw [uninstallScan_mem]
    refine ⟨manifestItems "skills",
      show ("skills", manifestItems "skills") ∈ INSTALLED_ITEMS by decide,
      hMS n hn, ?_⟩
    have hpath : root ++ ["skills", n] = (root ++ ["skills"]) ++ [n] := by simp
    rw [show (("skills", n) : String × String).1 = "skills" from rfl,
      show (("skills", n) : String × String).2 = n from rfl, hpath]
    exact hG3S n hn
  have hremAll : ∀ gi ∈ uninstallScan root FS2, removable FS2 (root ++ [gi.1, gi.2]) := by
    intro gi hgi
    rcases hscan_elim gi hgi with ⟨hg, hn⟩ | ⟨hg, hn⟩
    · have hpath : root ++ [gi.1, gi.2] = (root ++ ["commands"]) ++ [gi.2] := by
        rw [hg]
        simp
      rw [hpath]
      exact hremC2 gi.2 hn
    · have hpath : root ++ [gi.1, gi.2] = (root ++ ["skills"]) ++ [gi.2] := by
        rw [hg]
        simp
      rw [hpath]
      exact hG5S gi.2 hn
  have hfinal : (uninstallFlow true "" root FS2).fs =
      (runRemovals root (uninstallScan root FS2) (0, FS2)).2 := by
    unfold uninstallFlow
    by_cases hsc : (uninstallScan root FS2).isEmpty = true
    · rw [if_pos hsc]
      rw [List.isEmpty_eq_true] at hsc
      rw [hsc, runRemovals_nil]
    · rw [if_neg hsc, if_neg (by simp)]
  have hclean := runRemovals_clean root (uninstallScan root FS2) (0, FS2)
    (uninstallScan_nodup root FS2) hremAll
  have hfs_under : ∀ gi ∈ uninstallScan root FS2, ∀ p,
      pathStartsWith p (root ++ [gi.1, gi.2]) = true →
      fs.files p = none ∧ fs.dirs p = false := by
    intro gi hgi p hp
    obtain ⟨q2, hq2⟩ := psw_exists_suffix hp
    subst hq2
    rcases hscan_elim gi hgi with ⟨hg, _⟩ | ⟨hg, _⟩
    · rw [hg]
      have hpath : (root ++ ["commands", gi.2]) ++ q2 =
          (root ++ ["commands"]) ++ gi.2 :: q2 := by simp
      rw [hpath]
      exact hEC gi.2 q2
    · rw [hg]
      have hpath : (root ++ ["skills", gi.2]) ++ q2 =
          (root ++ ["skills"]) ++ gi.2 :: q2 := by simp
      rw [hpath]
      exact hES gi.2 q2
  constructor
  · intro p
    rw [hfinal]
    by_cases hrem : ∃ gi ∈ uninstallScan root FS2,
        pathStartsWith p (root ++ [gi.1, gi.2]) = true
    · obtain ⟨gi, hgi, hp⟩ := hrem
      rw [(hclean gi hgi p hp).1, (hfs_under gi hgi p hp).1]
    · push_neg at hrem
      have hfr : ∀ gi ∈ uninstallScan root FS2,
          pathStartsWith p (root ++ [gi.1, gi.2]) = false := by
        intro gi hgi
        simpa using hrem gi hgi
      rw [(runRemovals_frame root _ _ p hfr).1]
      by_cases hc : pathStartsWith p (root ++ ["commands"]) = true
      · obtain ⟨q2, hq2⟩ := psw_exists_suffix hc
        subst hq2
        cases q2 with
        | nil =>
            rw [List.append_nil]
            have hsub := hskip (root ++ ["commands"]) (psw_refl _)
            rw [hsub.1, hG6C, hfs1f]
        | cons n q3 =>
            by_cases hn : n ∈ entsC.map Prod.fst
            · exfalso
              have hmem := hscan_introC n hn
              have hcov : pathStartsWith ((root ++ ["commands"]) ++ n :: q3)
                  (root ++ [(("commands", n) : String × String).1,
                    (("commands", n) : String × String).2]) = true := by
                have hpath : root ++ ["commands", n] = (root ++ ["commands"]) ++ [n] := by
                  simp
                rw [show (("commands", n) : String × String).1 = "commands" from rfl,
                  show (("commands", n) : String × String).2 = n from rfl, hpath,
                  show ((root ++ ["commands"]) ++ n :: q3 : FPath) =
                    ((root ++ ["commands"]) ++ [n]) ++ q3 by simp]
                exact psw_append _ _
              rw [hfr ("commands", n) hmem] at hcov
              cases hcov
            · have hsub := hskip ((root ++ ["commands"]) ++ n :: q3) (psw_append _ _)
              rw [hsub.1, (hG4C n q3 hn).1, (hEC n q3).1]
      · by_cases hs2 : pathStartsWith p (root ++ ["skills"]) = true
        · obtain ⟨q2, hq2⟩ := psw_exists_suffix hs2
          subst hq2
          cases q2 with
          | nil =>
              rw [List.append_nil]
              rw [hG6S]
              rw [copy_files_frame _ _ _ _ (psw_sibling root (by decide))]
              rw [hfs1f]
          | cons n q3 =>
              by_cases hn : n ∈ entsS.map Prod.fst
              · exfalso
                have hmem := hscan_introS n hn
                have hcov : pathStartsWith ((root ++ ["skills"]) ++ n :: q3)
                    (root ++ [(("skills", n) : String × String).1,
                      (("skills", n) : String × String).2]) = true := by
                  have hpath : root ++ ["skills", n] = (root ++ ["skills"]) ++ [n] := by
                    simp
                  rw [show (("skills", n) : String × String).1 = "skills" from rfl,
                    show (("skills", n) : String × String).2 = n from rfl, hpath,
                    show ((root ++ ["skills"]) ++ n :: q3 : FPath) =
                      ((root ++ ["skills"]) ++ [n]) ++ q3 by simp]
                  exact psw_append _ _
                rw [hfr ("skills", n) hmem] at hcov
                cases hcov
              · rw [(hG4S n q3 hn).1, (hES n q3).1]
        · have h0 : pathStartsWith p (root ++ ["commands"]) = false := by simpa using hc
          have h1 : pathStartsWith p (root ++ ["skills"]) = false := by simpa using hs2
          rw [hFS2, copy_files_frame _ _ _ p h1, copy_files_frame _ _ _ p h0, hfs1f]
  · intro p hp1 hpC hpS
    rw [hfinal]
    by_cases hrem : ∃ gi ∈ uninstallScan root FS2,
        pathStartsWith p (root ++ [gi.1, gi.2]) = true
    · obtain ⟨gi, hgi, hp⟩ := hrem
      rw [(hclean gi hgi p hp).2, (hfs_under gi hgi p hp).2]
    · push_neg at hrem
      have hfr : ∀ gi ∈ uninstallScan root FS2,
          pathStartsWith p (root ++ [gi.1, gi.2]) = false := by
        intro gi hgi
        simpa using hrem gi hgi
      rw [(runRemovals_frame root _ _ p hfr).2]
      by_cases hc : pathStartsWith p (root ++ ["commands"]) = true
      · obtain ⟨q2, hq2⟩ := psw_exists_suffix hc
        subst hq2
        cases q2 with
        | nil =>
            exfalso
            exact hpC (by simp)
        | cons n q3 =>
            by_cases hn : n ∈ entsC.map Prod.fst
            · exfalso
              have hmem := hscan_introC n hn
              have hcov : pathStartsWith ((root ++ ["commands"]) ++ n :: q3)
                  (root ++ [(("commands", n) : String × String).1,
                    (("commands", n) : String × String).2]) = true := by
                have hpath : root ++ ["commands", n] = (root ++ ["commands"]) ++ [n] := by
                  simp
                rw [show (("commands", n) : String × String).1 = "commands" from rfl,
                  show (("commands", n) : String × String).2 = n from rfl, hpath,
                  show ((root ++ ["commands"]) ++ n :: q3 : FPath) =
                    ((root ++ ["commands"]) ++ [n]) ++ q3 by simp]
                exact psw_append _ _
              rw [hfr ("commands", n) hmem] at hcov
              cases hcov
            · have hsub := hskip ((root ++ ["commands"]) ++ n :: q3) (psw_append _ _)
              rw [hsub.2, (hG4C n q3 hn).2, (hEC n q3).2]
      · by_cases hs2 : pathStartsWith p (root ++ ["skills"]) = true
        · obtain ⟨q2, hq2⟩ := psw_exists_suffix hs2
          subst hq2
          cases q2 with
          | nil =>
              exfalso
              exact hpS (by simp)
          | cons n q3 =>
              by_cases hn : n ∈ entsS.map Prod.fst
              · exfalso
                have hmem := hscan_introS n hn
                have hcov : pathStartsWith ((root ++ ["skills"]) ++ n :: q3)
                    (root ++ [(("skills", n) : String × String).1,
                      (("skills", n) : String × String).2]) = true := by
                  have hpath : root ++ ["skills", n] = (root ++ ["skills"]) ++ [n] := by
                    simp
                  rw [show (("skills", n) : String × String).1 = "skills" from rfl,
                    show (("skills", n) : String × String).2 = n from rfl, hpath,
                    show ((root ++ ["skills"]) ++ n :: q3 : FPath) =
                      ((root ++ ["skills"]) ++ [n]) ++ q3 by simp]
                  exact psw_append _ _
                rw [hfr ("skills", n) hmem] at hcov
                cases hcov
              · rw [(hG4S n q3 hn).2, (hES n q3).2]
        · have h0 : pathStartsWith p (root ++ ["commands"]) = false := by simpa using hc
          have h1 : pathStartsWith p (root ++ ["skills"]) = false := by simpa using hs2
          have h2C : pathStartsWith (root ++ ["commands"]) p = false := by
            by_cases hb : pathStartsWith (root ++ ["commands"]) p = true
            · exfalso
              rcases psw_snoc_elim hb with hd | hd
              · rw [hp1] at hd
                cases hd
              · exact hpC hd
            · simpa using hb
          have h2S : pathStartsWith (root ++ ["skills"]) p = false := by
            by_cases hb : pathStartsWith (root ++ ["skills"]) p = true
            · exfalso
              rcases psw_snoc_elim hb with hd | hd
              · rw [hp1] at hd
                cases hd
              · exact hpS hd
            · simpa using hb
          rw [hFS2, copy_dirs_frame _ _ _ p h1 h2S, copy_dirs_frame _ _ _ p h0 h2C,
            hfs1d p hp1]

/-- C1 amended: for every destination root, every source holding the two
configured groups as directories whose (duplicate-free) top-level entries
are all manifest-listed, and every destination state with nothing strictly
inside the group directories, install followed by uninstall (both
auto-confirmed) restores every file and every directory — except that the
root directory (with any ancestors created for it) and the two group
directories may remain present. -/
theorem C1_amended_roundtrip (src : List (String × FTree)) (root : FPath) (fs : FS)
    (entsC entsS : List (String × FTree))
    (hC : lookupEntry src "commands" = some (.dir entsC))
    (hS : lookupEntry src "skills" = some (.dir entsS))
    (hMC : ∀ n ∈ entsC.map Prod.fst, manifestMem "commands" n)
    (hMS : ∀ n ∈ entsS.map Prod.fst, manifestMem "skills" n)
    (hNC : (entsC.map Prod.fst).Nodup)
    (hNS : (entsS.map Prod.fst).Nodup)
    (hE : ∀ g ∈ CUSTOMIZATION_DIRS, ∀ (x : String) (q : FPath),
      fs.files (root ++ g :: x :: q) = none ∧ fs.dirs (root ++ g :: x :: q) = false) :
    (∀ p, (roundTrip src root fs).files p = fs.files p) ∧
    (∀ p, pathStartsWith root p = false →
      p ≠ root ++ ["commands"] → p ≠ root ++ ["skills"] →
      (roundTrip src root fs).dirs p = fs.dirs p) := by
  have hEC : ∀ (x : String) (q : FPath),
      fs.files ((root ++ ["commands"]) ++ x :: q) = none ∧
      fs.dirs ((root ++ ["commands"]) ++ x :: q) = false := by
    intro x q
    rw [List.append_assoc, List.singleton_append]
    exact hE "commands" (by decide) x q
  have hES : ∀ (x : String) (q : FPath),
      fs.files ((root ++ ["skills"]) ++ x :: q) = none ∧
      fs.dirs ((root ++ ["skills"]) ++ x :: q) = false := by
    intro x q
    rw [List.append_assoc, List.singleton_append]
    exact hE "skills" (by decide) x q
  have hsomeC : (lookupEntry src "commands").isSome = true := by rw [hC]; rfl
  have hsomeS : (lookupEntry src "skills").isSome = true := by rw [hS]; rfl
  have hval : availableDirs src = ["commands", "skills"] := by
    simp [availableDirs, CUSTOMIZATION_DIRS, List.filter, hsomeC, hsomeS]
  have hnp : installPrompted src true root fs = false := by
    unfold installPrompted
    simp
  have hinstall : (installFlow src true "" root fs).fs =
      copyRecursive (.dir entsS) (root ++ ["skills"])
        (copyRecursive (.dir entsC) (root ++ ["commands"])
          (if fs.pathExists root = true then fs else fs.mkdirp root)) := by
    unfold installFlow
    rw [hval, hnp]
    rw [if_neg (by simp)]
    rw [if_neg (by simp)]
    show installCopy src root fs = _
    unfold installCopy
    rw [hval]
    simp only [List.foldl, hC, hS]
  have hfs1f : ∀ p,
      (if fs.pathExists root = true then fs else fs.mkdirp root).files p = fs.files p := by
    intro p
    by_cases hx : fs.pathExists root = true <;> simp [hx, files_mkdirp]
  have hfs1d : ∀ p, pathStartsWith root p = false →
      (if fs.pathExists root = true then fs else fs.mkdirp root).dirs p = fs.dirs p := by
    intro p hp
    by_cases hx : fs.pathExists root = true <;> simp [hx, dirs_mkdirp, hp]
  have hcore := roundTripCore root fs
    (if fs.pathExists root = true then fs else fs.mkdirp root) entsC entsS
    hNC hNS hMC hMS hfs1f hfs1d hEC hES
  unfold roundTrip
  rw [hinstall]
  exact hcore

/-- A source tree whose group contents are exactly manifest entries. -/
def srcGood : List (String × FTree) :=
  [("commands", .dir [("davenov:cc:interview.md", .file "A")]),
   ("skills", .dir [("davenov:cc:expert-nextjs-16", .dir [("SKILL.md", .file "S")])])]

/-- Witness for the amended C1 on a concrete empty destination: after the
round trip, the installed manifest file is gone again. -/
theorem C1_amended_roundtrip_witness :
    (roundTrip srcGood ["r"] ⟨fun _ => none, fun _ => false⟩).files
      ["r", "commands", "davenov:cc:interview.md"] = none := by
  have h := (C1_amended_roundtrip srcGood ["r"] ⟨fun _ => none, fun _ => false⟩
    [("davenov:cc:interview.md", .file "A")]
    [("davenov:cc:expert-nextjs-16", .dir [("SKILL.md", .file "S")])]
    rfl rfl (by decide) (by decide) (by decide) (by decide)
    (fun _ _ _ _ => ⟨rfl, rfl⟩)).1 ["r", "commands", "davenov:cc:interview.md"]
  rw [h]

end Davenov
